import Mathlib

/-!
Verification of the text-patching utilities of the user-management-service
maintenance scripts (fix-adapter-mocks.py, patch-container.py,
patch-tests.py, revert-container-patch.py).

File contents are modelled as `List Char`.  Python's `str.replace` is
modelled by `replaceAll` (leftmost, non-overlapping, left-to-right), and
Python's `x in s` substring test by `occurs`.  The regex substitutions of
the two regex-based scripts are modelled by explicit deterministic
scanners further below; determinism is justified because in both patterns
every quantifier is followed by a literal that cannot extend the
quantified class, so the backtracking engine and the greedy scan agree.

All scanners are defined structurally with a fuel argument, set to the
length of the input, so that they evaluate by `decide`; fuel-irrelevance
lemmas recover the natural unfolding equations.
-/

namespace UMS

/-- Boolean prefix test on character lists (`l` is a prefix of `s`). -/
def pfx : List Char → List Char → Bool
  | [], _ => true
  | _ :: _, [] => false
  | a :: as, b :: bs => a = b && pfx as bs

/-- Boolean substring test: Python's `a in s` for nonempty `a`
(for `a = []` it agrees with Python only on `s = []`, which is irrelevant
here since every needle in the scripts is a nonempty literal). -/
def occurs (a : List Char) : List Char → Bool
  | [] => a.isEmpty
  | c :: s => pfx a (c :: s) || occurs a s

/-- Fueled model of Python's `str.replace a b`: replace the leftmost
occurrence of `a`, continue scanning after the replacement. -/
def repF (a b : List Char) : Nat → List Char → List Char
  | _, [] => []
  | 0, s => s
  | fuel + 1, c :: s =>
    if pfx a (c :: s) && !a.isEmpty then
      b ++ repF a b fuel (List.drop (a.length - 1) s)
    else
      c :: repF a b fuel s

/-- Python's `s.replace(a, b)` (for nonempty `a`). -/
def replaceAll (a b s : List Char) : List Char :=
  repF a b s.length s

/-- The statement disabled by patch-container.py. -/
def stmtL : List Char := "container.reset();".data

/-- The annotated comment patch-container.py writes in its place. -/
def markerL : List Char :=
  "// container.reset(); // Removed to preserve src/container.ts registrations".data

/-- Content transformation of patch-container.py (the Disabler): guarded
textual replacement of the reset statement by the annotated comment. -/
def disableTransform (c : List Char) : List Char :=
  if occurs stmtL c then replaceAll stmtL markerL c else c

/-- Whether patch-container.py writes the file back. -/
def disableWrites (c : List Char) : Bool :=
  occurs stmtL c

/-- Content transformation of revert-container-patch.py (the Restorer):
guarded textual replacement of the annotated comment by the statement. -/
def revertTransform (c : List Char) : List Char :=
  if occurs markerL c then replaceAll markerL stmtL c else c

/-- Whether revert-container-patch.py writes the file back. -/
def revertWrites (c : List Char) : Bool :=
  occurs markerL c

/-- Python's `\s` on the ASCII range (the patched test files are ASCII). -/
def pySpace (c : Char) : Bool :=
  c = ' ' || c = '\t' || c = '\n' || c = '\r' || c = '\x0b' || c = '\x0c'

/-- Python's `\w` on the ASCII range. -/
def isWordChar (c : Char) : Bool :=
  c.isAlpha || c.isDigit || c = '_'

/-- Strip an exact literal from the head of the input, returning the
remainder on success. -/
def stripLit : List Char → List Char → Option (List Char)
  | [], s => some s
  | _ :: _, [] => none
  | l :: ls, c :: s => if c = l then stripLit ls s else none

/-- Fixed literal pieces of the fix-adapter-mocks.py regex
`(expect\(userMgmtAdapterMock\.\w+\)\.toHaveBeenCalledWith\()`
`expect\.any\(String\),\s*`. -/
def remHead : List Char := "expect(userMgmtAdapterMock.".data

def remMid : List Char := ").toHaveBeenCalledWith(".data

def anyStrComma : List Char := "expect.any(String),".data

/-- One attempted match of the fix-adapter-mocks.py regex at the head of
`s`: on success, the retained group-1 text and the remainder after the
whole match.  The greedy scan agrees with the backtracking engine: `\w+`
is followed by `)`, which is not a word character, and `\s*` ends the
pattern. -/
def removerMatch (s : List Char) : Option (List Char × List Char) :=
  match stripLit remHead s with
  | none => none
  | some s1 =>
    let w := s1.takeWhile isWordChar
    let s2 := s1.dropWhile isWordChar
    if w.isEmpty then none
    else
      match stripLit remMid s2 with
      | none => none
      | some s3 =>
        match stripLit anyStrComma s3 with
        | none => none
        | some s4 => some (remHead ++ w ++ remMid, s4.dropWhile pySpace)

/-- Fueled left-to-right scan of `pattern.subn(r'\1', content)` in
fix-adapter-mocks.py: output content and substitution count. -/
def removerF : Nat → List Char → List Char × Nat
  | _, [] => ([], 0)
  | 0, s => (s, 0)
  | fuel + 1, c :: s =>
    match removerMatch (c :: s) with
    | some (kept, rest) =>
      let p := removerF fuel rest
      (kept ++ p.1, p.2 + 1)
    | none =>
      let p := removerF fuel s
      (c :: p.1, p.2)

/-- Content transformation of fix-adapter-mocks.py (the Remover). -/
def removerTransform (c : List Char) : List Char :=
  (removerF c.length c).1

/-- Substitution count reported by fix-adapter-mocks.py for one file. -/
def removerCount (c : List Char) : Nat :=
  (removerF c.length c).2

/-- Whether fix-adapter-mocks.py writes the file back (`count > 0`). -/
def removerWrites (c : List Char) : Bool :=
  decide (0 < removerCount c)

/-- The Remover's single fixed target mock identifier. -/
def tnameL : List Char := "userMgmtAdapterMock".data

/-- The literal head shared by every call-assertion occurrence. -/
def expectParen : List Char := "expect(".data

/-- The fixed tail of a call-assertion occurrence after the member name:
`).toHaveBeenCalledWith(expect.any(String), `. -/
def remTailLit : List Char := remMid ++ anyStrComma ++ [' ']

/-- A call-assertion occurrence for mock `name` and member `w` in the
canonical one-space form the scripts produce:
`expect(NAME.MEMBER).toHaveBeenCalledWith(expect.any(String), `. -/
def occOf (name w : List Char) : List Char :=
  expectParen ++ (name ++ ('.' :: (w ++ remTailLit)))

/-- The known mock identifiers of patch-tests.py, in source order. -/
def mocksL : List (List Char) :=
  ["userProfileRepositoryMock".data, "policyRepositoryMock".data,
   "roleRepositoryMock".data, "permissionRepositoryMock".data,
   "assignmentRepositoryMock".data, "userMgmtAdapterMock".data,
   "idpAdapterMock".data, "userRepositoryMock".data,
   "mockUserProfileRepository".data, "mockPolicyRepository".data,
   "mockRoleRepository".data, "mockPermissionRepository".data,
   "mockAssignmentRepository".data, "mockUserMgmtAdapter".data]

def insHeadE : List Char := "expect".data

def insTailLit : List Char := ".toHaveBeenCalledWith".data

def anyStringArg : List Char := "expect.any(String)".data

/-- The placeholder text the Inserter adds after the matched open paren. -/
def insertedArg : List Char := "expect.any(String), ".data

/-- Needle of the first normalization replace of patch-tests.py. -/
def needleDup : List Char := "expect.any(String), expect.any(String)".data

/-- Needle and replacement of the second normalization replace. -/
def needleDangle : List Char := "expect.any(String), )".data

def needleDangleRepl : List Char := "expect.any(String))".data

/-- First mock name that is a literal prefix of `s` (the names are
mutually prefix-free, so the ordered alternation of the regex agrees with
first-literal-prefix-wins). -/
def firstLitPfx : List (List Char) → List Char → Option (List Char × List Char)
  | [], _ => none
  | m :: ms, s =>
    match stripLit m s with
    | some r => some (m, r)
    | none => firstLitPfx ms s

/-- The text the patch-tests.py regex matches at a canonical (space-free)
call-assertion site: `expect(NAME.MEMBER).toHaveBeenCalledWith(`. -/
def siteOf (name w : List Char) : List Char :=
  expectParen ++ (name ++ ('.' :: (w ++ remMid)))

/-- One attempted match of the patch-tests.py regex
`expect\s*\(\s*(NAMES)\.(\w+)\s*\)\.toHaveBeenCalledWith\s*\(` at the
head of `s`: on success, the whole matched text (group 0) and the
remainder.  Greedy scanning agrees with the engine: every `\s*` is
followed by a non-space literal or a name starting with a letter, and
`\w+` is followed by `\s*\)`. -/
def insMatch (s : List Char) : Option (List Char × List Char) :=
  match stripLit insHeadE s with
  | none => none
  | some s1 =>
    let sp1 := s1.takeWhile pySpace
    let s2 := s1.dropWhile pySpace
    match stripLit ['('] s2 with
    | none => none
    | some s3 =>
      let sp2 := s3.takeWhile pySpace
      let s4 := s3.dropWhile pySpace
      match firstLitPfx mocksL s4 with
      | none => none
      | some (name, s5) =>
        match stripLit ['.'] s5 with
        | none => none
        | some s6 =>
          let w := s6.takeWhile isWordChar
          let s7 := s6.dropWhile isWordChar
          if w.isEmpty then none
          else
            let sp3 := s7.takeWhile pySpace
            let s8 := s7.dropWhile pySpace
            match stripLit [')'] s8 with
            | none => none
            | some s9 =>
              match stripLit insTailLit s9 with
              | none => none
              | some s10 =>
                let sp4 := s10.takeWhile pySpace
                let s11 := s10.dropWhile pySpace
                match stripLit ['('] s11 with
                | none => none
                | some s12 =>
                  some (insHeadE ++ sp1 ++ '(' :: sp2 ++ name ++ '.' :: w ++
                    sp3 ++ ')' :: insTailLit ++ sp4 ++ ['('], s12)

/-- Fueled left-to-right scan of `pattern.sub(replacer, content)` in
patch-tests.py: every match is replaced by itself followed by the
placeholder argument. -/
def insF : Nat → List Char → List Char
  | _, [] => []
  | 0, s => s
  | fuel + 1, c :: s =>
    match insMatch (c :: s) with
    | some (g0, rest) => g0 ++ insertedArg ++ insF fuel rest
    | none => c :: insF fuel s

/-- The regex-substitution pass of patch-tests.py. -/
def insertScan (c : List Char) : List Char :=
  insF c.length c

/-- Full content transformation of patch-tests.py (the Inserter):
regex substitution followed by the two global normalization replaces. -/
def inserterTransform (c : List Char) : List Char :=
  replaceAll needleDangle needleDangleRepl
    (replaceAll needleDup anyStringArg (insertScan c))

/-- Whether patch-tests.py writes the file back (`content != new_content`). -/
def inserterWrites (c : List Char) : Bool :=
  decide (inserterTransform c ≠ c)

/-- Line-boundary characters of `str.splitlines` within the modelled
character range (the unicode-only boundaries do not occur in manifests). -/
def nlStop (c : Char) : Bool :=
  c = '\n' || c = '\r' || c = '\x0b' || c = '\x0c'

/-- Fueled model of Python's `str.splitlines`: no trailing empty line,
`\r\n` is one boundary. -/
def splitF : Nat → List Char → List (List Char)
  | _, [] => []
  | 0, s => [s]
  | fuel + 1, s =>
    let line := s.takeWhile (fun c => !nlStop c)
    match s.dropWhile (fun c => !nlStop c) with
    | [] => [line]
    | c :: r =>
      if c = '\r' then
        match r with
        | '\n' :: r2 => line :: splitF fuel r2
        | _ => line :: splitF fuel r
      else line :: splitF fuel r

def splitLines (s : List Char) : List (List Char) :=
  splitF s.length s

/-- Python's `str.strip()` (whitespace strip on both ends). -/
def pyStrip (s : List Char) : List Char :=
  ((s.dropWhile pySpace).reverse.dropWhile pySpace).reverse

/-- The manifest-derived work list of patch-tests.py:
`list(set(f.strip() for f in files if f.strip()))`, with Python's
unordered `set` modelled by `dedup`. -/
def manifestFiles (m : List Char) : List (List Char) :=
  (((splitLines m).filter (fun f => !(pyStrip f).isEmpty)).map pyStrip).dedup

/-- `f.replace('/', os.sep)`: conversion to platform-native separators. -/
def sepConvert (sep : Char) (f : List Char) : List Char :=
  f.map (fun c => if c = '/' then sep else c)

/-- Result of opening a path in the abstract filesystem. -/
inductive FileEntry where
  | absent : FileEntry
  | unreadable : FileEntry
  | file : List Char → FileEntry
deriving DecidableEq

/-- Abstract filesystem: native-separator path to entry. -/
def FS : Type := List Char → FileEntry

/-- Per-file outcome of the patch-tests.py loop, as printed. -/
inductive Outcome where
  | skippedMissing : Outcome
  | errored : Outcome
  | changed : Outcome
  | unchanged : Outcome
deriving DecidableEq

/-- One iteration of the patch-tests.py loop on an already-converted
path: existence check, then guarded read-transform-write with the
`except` clause catching read/write failure. -/
def insStep (fs : FS) (path : List Char) : Outcome × FS :=
  match fs path with
  | FileEntry.absent => (Outcome.skippedMissing, fs)
  | FileEntry.unreadable => (Outcome.errored, fs)
  | FileEntry.file content =>
    let nc := inserterTransform content
    if nc ≠ content then
      (Outcome.changed, Function.update fs path (FileEntry.file nc))
    else
      (Outcome.unchanged, fs)

/-- The patch-tests.py loop over the work list: per-path outcome log and
final filesystem. -/
def insRun (fs : FS) : List (List Char) → List (List Char × Outcome) × FS
  | [] => ([], fs)
  | p :: ps =>
    let r := insStep fs p
    let rr := insRun r.2 ps
    ((p, r.1) :: rr.1, rr.2)

/-- The fixed manifest path of patch-tests.py. -/
def manifestPath : List Char := "failed-tests.txt".data

/-- Whole-script model of patch-tests.py: opening the manifest is outside
any try block, so a missing or unreadable manifest aborts the run before
any file is touched; otherwise the loop runs over the converted work
list. -/
def inserterScript (sep : Char) (fs : FS) :
    Except Unit (List (List Char × Outcome)) × FS :=
  match fs manifestPath with
  | FileEntry.file m =>
    let r := insRun fs ((manifestFiles m).map (sepConvert sep))
    (Except.ok r.1, r.2)
  | _ => (Except.error (), fs)

end UMS

namespace UMS

theorem pfx_length_le {a s : List Char} (h : pfx a s = true) :
    a.length ≤ s.length := by
  induction a generalizing s with
  | nil => simp
  | cons c as ih =>
    cases s with
    | nil => simp [pfx] at h
    | cons d ds =>
      simp only [pfx, Bool.and_eq_true] at h
      simpa using ih h.2

theorem pfx_append_weaken {a x : List Char} (y : List Char)
    (h : pfx a x = true) : pfx a (x ++ y) = true := by
  induction a generalizing x with
  | nil => simp [pfx]
  | cons c as ih =>
    cases x with
    | nil => simp [pfx] at h
    | cons d ds =>
      simp only [pfx, Bool.and_eq_true] at h ⊢
      exact ⟨h.1, ih h.2⟩

theorem occurs_append_left {a x : List Char} (y : List Char)
    (h : occurs a x = true) : occurs a (x ++ y) = true := by
  induction x with
  | nil =>
    simp only [occurs, List.isEmpty_iff] at h
    subst h
    cases y with
    | nil => rfl
    | cons c ys => simp [occurs, pfx]
  | cons c xs ih =>
    simp only [occurs, Bool.or_eq_true] at h ⊢
    rcases h with h | h
    · exact Or.inl (pfx_append_weaken y h)
    · exact Or.inr (ih h)

theorem repF_fuel_irrel {a b : List Char} :
    ∀ (f₁ f₂ : Nat) (s : List Char), s.length ≤ f₁ → s.length ≤ f₂ →
      repF a b f₁ s = repF a b f₂ s := by
  intro f₁
  induction f₁ with
  | zero =>
    intro f₂ s h1 _
    have : s = [] := List.eq_nil_of_length_eq_zero (Nat.le_zero.mp h1)
    subst this
    cases f₂ <;> rfl
  | succ f ih =>
    intro f₂ s h1 h2
    cases s with
    | nil => cases f₂ <;> rfl
    | cons c cs =>
      cases f₂ with
      | zero => exact absurd h2 (by simp)
      | succ f₂' =>
        have hlen : cs.length ≤ f := by
          have := h1; simp only [List.length_cons] at this; omega
        have hlen2 : cs.length ≤ f₂' := by
          have := h2; simp only [List.length_cons] at this; omega
        have hd : (List.drop (a.length - 1) cs).length ≤ cs.length := by
          simp only [List.length_drop]; omega
        simp only [repF]
        by_cases hp : (pfx a (c :: cs) && !a.isEmpty) = true
        · rw [hp]
          simp only [if_true]
          rw [ih _ _ (le_trans hd hlen) (le_trans hd hlen2)]
        · rw [Bool.not_eq_true] at hp
          rw [hp]
          simp only [Bool.false_eq_true, if_false]
          rw [ih _ _ hlen hlen2]

theorem replaceAll_nil {a b : List Char} : replaceAll a b [] = [] := rfl

theorem replaceAll_cons_hit {a b : List Char} {c : Char} {s : List Char}
    (h : pfx a (c :: s) = true) (ha : a ≠ []) :
    replaceAll a b (c :: s) = b ++ replaceAll a b (List.drop (a.length - 1) s) := by
  have hcond : (pfx a (c :: s) && !a.isEmpty) = true := by
    simp [h, List.isEmpty_iff, ha]
  show repF a b (c :: s).length (c :: s) = _
  simp only [List.length_cons, repF, hcond, if_true]
  congr 1
  refine repF_fuel_irrel _ _ _ ?_ le_rfl
  simp only [List.length_drop]
  omega

theorem replaceAll_cons_skip {a b : List Char} {c : Char} {s : List Char}
    (h : (pfx a (c :: s) && !a.isEmpty) = false) :
    replaceAll a b (c :: s) = c :: replaceAll a b s := by
  show repF a b (c :: s).length (c :: s) = _
  simp only [List.length_cons, repF, h, Bool.false_eq_true, if_false]
  rfl

theorem replaceAll_cons_miss {a b : List Char} {c : Char} {s : List Char}
    (h : pfx a (c :: s) = false) :
    replaceAll a b (c :: s) = c :: replaceAll a b s :=
  replaceAll_cons_skip (by simp [h])

theorem replaceAll_not_occurs {a b s : List Char}
    (h : occurs a s = false) : replaceAll a b s = s := by
  induction s with
  | nil => rfl
  | cons c cs ih =>
    simp only [occurs, Bool.or_eq_false_iff] at h
    rw [replaceAll_cons_miss h.1, ih h.2]

theorem replaceAll_length_ge_aux {a b : List Char} (hab : a.length ≤ b.length) :
    ∀ (n : Nat) (s : List Char), s.length ≤ n →
      s.length ≤ (replaceAll a b s).length := by
  intro n
  induction n with
  | zero =>
    intro s hs
    have : s = [] := List.eq_nil_of_length_eq_zero (Nat.le_zero.mp hs)
    subst this; simp [replaceAll_nil]
  | succ n ih =>
    intro s hs
    cases s with
    | nil => simp [replaceAll_nil]
    | cons c cs =>
      by_cases hcond : (pfx a (c :: cs) && !a.isEmpty) = true
      · have hp : pfx a (c :: cs) = true := by
          simp only [Bool.and_eq_true] at hcond; exact hcond.1
        have ha : a ≠ [] := by
          intro hnil
          subst hnil
          simp [pfx] at hcond
        have halen : 1 ≤ a.length := by
          cases a with
          | nil => exact absurd rfl ha
          | cons x xs => simp
        have hale : a.length ≤ cs.length + 1 := by
          simpa using pfx_length_le hp
        rw [replaceAll_cons_hit hp ha]
        have hdn : (List.drop (a.length - 1) cs).length ≤ n := by
          simp only [List.length_drop]
          simp only [List.length_cons] at hs
          omega
        have := ih (List.drop (a.length - 1) cs) hdn
        simp only [List.length_append, List.length_cons]
        simp only [List.length_drop] at this
        omega
      · rw [Bool.not_eq_true] at hcond
        rw [replaceAll_cons_skip hcond]
        have hcs : cs.length ≤ n := by
          simp only [List.length_cons] at hs; omega
        have := ih cs hcs
        simp only [List.length_cons]
        omega

theorem replaceAll_length_ge {a b : List Char} (hab : a.length ≤ b.length)
    (s : List Char) : s.length ≤ (replaceAll a b s).length :=
  replaceAll_length_ge_aux hab s.length s le_rfl

theorem replaceAll_length_gt_aux {a b : List Char} (ha : a ≠ [])
    (hab : a.length < b.length) :
    ∀ (n : Nat) (s : List Char), s.length ≤ n → occurs a s = true →
      s.length < (replaceAll a b s).length := by
  intro n
  induction n with
  | zero =>
    intro s hs hocc
    have : s = [] := List.eq_nil_of_length_eq_zero (Nat.le_zero.mp hs)
    subst this
    simp only [occurs, List.isEmpty_iff] at hocc
    exact absurd hocc ha
  | succ n ih =>
    intro s hs hocc
    cases s with
    | nil =>
      simp only [occurs, List.isEmpty_iff] at hocc
      exact absurd hocc ha
    | cons c cs =>
      by_cases hp : pfx a (c :: cs) = true
      · have halen : 1 ≤ a.length := by
          cases a with
          | nil => exact absurd rfl ha
          | cons x xs => simp
        have hale : a.length ≤ cs.length + 1 := by
          simpa using pfx_length_le hp
        rw [replaceAll_cons_hit hp ha]
        have := replaceAll_length_ge (le_of_lt hab) (List.drop (a.length - 1) cs)
        simp only [List.length_append, List.length_cons]
        simp only [List.length_drop] at this
        omega
      · rw [Bool.not_eq_true] at hp
        rw [replaceAll_cons_miss hp]
        have hocc' : occurs a cs = true := by
          simp only [occurs, Bool.or_eq_true] at hocc
          rcases hocc with h | h
          · exact absurd h (by simp [hp])
          · exact h
        have hcs : cs.length ≤ n := by
          simp only [List.length_cons] at hs; omega
        have := ih cs hcs hocc'
        simp only [List.length_cons]
        omega

theorem replaceAll_length_gt {a b : List Char} (ha : a ≠ [])
    (hab : a.length < b.length) {s : List Char} (hocc : occurs a s = true) :
    s.length < (replaceAll a b s).length :=
  replaceAll_length_gt_aux ha hab s.length s le_rfl hocc

theorem occurs_self_replaceAll_aux {a b : List Char} (ha : a ≠ [])
    (hb : occurs a b = true) :
    ∀ (n : Nat) (s : List Char), s.length ≤ n → occurs a s = true →
      occurs a (replaceAll a b s) = true := by
  intro n
  induction n with
  | zero =>
    intro s hs hocc
    have : s = [] := List.eq_nil_of_length_eq_zero (Nat.le_zero.mp hs)
    subst this
    simp only [occurs, List.isEmpty_iff] at hocc
    exact absurd hocc ha
  | succ n ih =>
    intro s hs hocc
    cases s with
    | nil =>
      simp only [occurs, List.isEmpty_iff] at hocc
      exact absurd hocc ha
    | cons c cs =>
      by_cases hp : pfx a (c :: cs) = true
      · rw [replaceAll_cons_hit hp ha]
        exact occurs_append_left _ hb
      · rw [Bool.not_eq_true] at hp
        rw [replaceAll_cons_miss hp]
        have hocc' : occurs a cs = true := by
          simp only [occurs, Bool.or_eq_true] at hocc
          rcases hocc with h | h
          · exact absurd h (by simp [hp])
          · exact h
        have hcs : cs.length ≤ n := by
          simp only [List.length_cons] at hs; omega
        have := ih cs hcs hocc'
        simp only [occurs, Bool.or_eq_true]
        exact Or.inr this

theorem occurs_self_replaceAll {a b : List Char} (ha : a ≠ [])
    (hb : occurs a b = true) {s : List Char} (hocc : occurs a s = true) :
    occurs a (replaceAll a b s) = true :=
  occurs_self_replaceAll_aux ha hb s.length s le_rfl hocc

theorem disableTransform_eq_of_occurs {x : List Char}
    (h : occurs stmtL x = true) :
    disableTransform x = replaceAll stmtL markerL x := by
  simp [disableTransform, h]

theorem pfx_refl (a : List Char) : pfx a a = true := by
  induction a with
  | nil => rfl
  | cons c as ih => simp [pfx, ih]

theorem pfx_cons_elim {a0 : Char} {as : List Char} {c : Char} {x : List Char}
    (h : pfx (a0 :: as) (c :: x) = true) : a0 = c ∧ pfx as x = true := by
  simpa [pfx] using h

theorem pfx_trans {x y z : List Char} (h1 : pfx x y = true)
    (h2 : pfx y z = true) : pfx x z = true := by
  induction x generalizing y z with
  | nil => rfl
  | cons c xs ih =>
    cases y with
    | nil => simp [pfx] at h1
    | cons d ys =>
      cases z with
      | nil => simp [pfx] at h2
      | cons e zs =>
        obtain ⟨he1, hp1⟩ := pfx_cons_elim h1
        obtain ⟨he2, hp2⟩ := pfx_cons_elim h2
        simp only [pfx, Bool.and_eq_true, decide_eq_true_eq]
        exact ⟨he1.trans he2, ih hp1 hp2⟩

theorem pfx_self_append (b x : List Char) : pfx b (b ++ x) = true := by
  induction b with
  | nil => rfl
  | cons c bs ih => simpa [pfx] using ih

theorem pfx_append_split {x y z : List Char} (h : pfx x (y ++ z) = true)
    (hlen : x.length ≤ y.length) : pfx x y = true := by
  induction x generalizing y with
  | nil => rfl
  | cons c xs ih =>
    cases y with
    | nil => simp at hlen
    | cons d ys =>
      obtain ⟨he, hp⟩ := pfx_cons_elim h
      simp only [pfx, Bool.and_eq_true, decide_eq_true_eq]
      refine ⟨he, ih hp ?_⟩
      simpa using hlen

theorem pfx_decomp {a s : List Char} (h : pfx a s = true) :
    s = a ++ List.drop a.length s := by
  induction a generalizing s with
  | nil => simp
  | cons c as ih =>
    cases s with
    | nil => simp [pfx] at h
    | cons d ds =>
      obtain ⟨he, hp⟩ := pfx_cons_elim h
      have := ih hp
      simp only [List.length_cons, List.cons_append, List.drop_succ_cons]
      rw [he]
      exact congrArg (d :: ·) this

/-- No suffix of the statement is a prefix of the marker comment: the
statement has no slash, the marker starts with two. -/
theorem stmt_suffix_not_pfx_marker :
    ∀ j : Nat, j < stmtL.length → pfx (List.drop j stmtL) markerL = false := by
  decide

/-- The marker comment is aperiodic at shifts 1, 2 and 3. -/
theorem marker_shift_not_pfx :
    pfx (List.drop 1 markerL) markerL = false ∧
    pfx (List.drop 2 markerL) markerL = false ∧
    pfx (List.drop 3 markerL) markerL = false := by
  decide

/-- Occurrence alignment: if a suffix of the statement is a prefix of the
Disabler output, it already was a prefix of the input.  (The replacement
blocks cannot fake one: no statement suffix is a prefix of the marker.) -/
theorem stmt_suffix_pfx_output_aux :
    ∀ (n : Nat) (s : List Char), s.length ≤ n → ∀ j : Nat, j < stmtL.length →
      pfx (List.drop j stmtL) (replaceAll stmtL markerL s) = true →
      pfx (List.drop j stmtL) s = true := by
  intro n
  induction n with
  | zero =>
    intro s hs j hj hp
    have : s = [] := List.eq_nil_of_length_eq_zero (Nat.le_zero.mp hs)
    subst this
    rw [replaceAll_nil] at hp
    have hne : List.drop j stmtL ≠ [] := by
      intro hcontra
      have := congrArg List.length hcontra
      simp only [List.length_drop] at this
      simp at this
      omega
    cases hdrop : List.drop j stmtL with
    | nil => exact absurd hdrop hne
    | cons c cs => rw [hdrop] at hp; simp [pfx] at hp
  | succ n ih =>
    intro s hs j hj hp
    cases s with
    | nil =>
      rw [replaceAll_nil] at hp
      cases hdrop : List.drop j stmtL with
      | nil =>
        have := congrArg List.length hdrop
        simp only [List.length_drop] at this
        simp at this
        omega
      | cons c cs => rw [hdrop] at hp; simp [pfx] at hp
    | cons c t =>
      by_cases hhit : pfx stmtL (c :: t) = true
      · rw [replaceAll_cons_hit hhit (by decide)] at hp
        have hlen : (List.drop j stmtL).length ≤ markerL.length := by
          simp only [List.length_drop]
          have h1 : stmtL.length = 18 := by decide
          have h2 : markerL.length = 75 := by decide
          omega
        have := pfx_append_split hp hlen
        rw [stmt_suffix_not_pfx_marker j hj] at this
        exact absurd this (by simp)
      · rw [Bool.not_eq_true] at hhit
        rw [replaceAll_cons_miss hhit] at hp
        have hdrop : List.drop j stmtL = stmtL[j] :: List.drop (j + 1) stmtL :=
          List.drop_eq_getElem_cons hj
        rw [hdrop] at hp
        obtain ⟨he, hp'⟩ := pfx_cons_elim hp
        by_cases hj1 : j + 1 < stmtL.length
        · have ht : pfx (List.drop (j + 1) stmtL) t = true := by
            refine ih t ?_ (j + 1) hj1 hp'
            simp only [List.length_cons] at hs
            omega
          rw [hdrop]
          simp only [pfx, Bool.and_eq_true, decide_eq_true_eq]
          exact ⟨he, ht⟩
        · have hj1' : j + 1 = stmtL.length := by omega
          have hnil : List.drop (j + 1) stmtL = [] := by
            rw [hj1']
            simp
          rw [hdrop, hnil]
          simp only [pfx, Bool.and_eq_true, decide_eq_true_eq]
          exact ⟨he, trivial⟩

theorem stmt_pfx_output {s : List Char}
    (hp : pfx stmtL (replaceAll stmtL markerL s) = true) :
    pfx stmtL s = true := by
  have h18 : (0 : Nat) < stmtL.length := by decide
  have := stmt_suffix_pfx_output_aux s.length s le_rfl 0 h18
  simpa using this hp

/-- The marker shifted by three starts with the statement, so it can be a
prefix of no Disabler output. -/
theorem marker_drop3_not_pfx_output (s : List Char) :
    pfx (List.drop 3 markerL) (replaceAll stmtL markerL s) = false := by
  by_contra hcontra
  rw [Bool.not_eq_false] at hcontra
  have hsm : pfx stmtL (List.drop 3 markerL) = true := by decide
  have h1 : pfx stmtL (replaceAll stmtL markerL s) = true :=
    pfx_trans hsm hcontra
  have h2 : pfx stmtL s = true := stmt_pfx_output h1
  cases s with
  | nil => simp [pfx] at h2
  | cons c t =>
    rw [replaceAll_cons_hit h2 (by decide)] at hcontra
    have hlen : (List.drop 3 markerL).length ≤ markerL.length := by
      simp only [List.length_drop]
      omega
    have := pfx_append_split hcontra hlen
    rw [marker_shift_not_pfx.2.2] at this
    exact absurd this (by simp)

theorem pfx_tail_step {m x : List Char} {c : Char}
    (h : pfx m (c :: x) = true) (hm : m ≠ []) :
    pfx (List.drop 1 m) x = true := by
  cases m with
  | nil => exact absurd rfl hm
  | cons a as =>
    simp only [List.drop_succ_cons, List.drop_zero]
    exact (pfx_cons_elim h).2

theorem pfx_drop_step {m x : List Char} {c : Char} {k : Nat}
    (h : pfx (List.drop k m) (c :: x) = true) (hm : List.drop k m ≠ []) :
    pfx (List.drop (k + 1) m) x = true := by
  have := pfx_tail_step h hm
  rwa [List.drop_drop] at this

theorem pfx_nonempty_nil {m : List Char} (hm : m ≠ [])
    (h : pfx m [] = true) : False := by
  cases m with
  | nil => exact absurd rfl hm
  | cons a as => simp [pfx] at h

/-- The Disabler output of a non-statement-initial input never starts with
the marker: a marker prefix would force a misaligned statement occurrence. -/
theorem marker_not_pfx_output {s : List Char}
    (hmiss : pfx stmtL s = false) :
    pfx markerL (replaceAll stmtL markerL s) = false := by
  by_contra hcontra
  rw [Bool.not_eq_false] at hcontra
  cases s with
  | nil =>
    rw [replaceAll_nil] at hcontra
    exact pfx_nonempty_nil (by decide) hcontra
  | cons c t =>
    rw [replaceAll_cons_miss hmiss] at hcontra
    have h1 : pfx (List.drop 1 markerL) (replaceAll stmtL markerL t) = true := by
      have := pfx_tail_step hcontra (by decide)
      exact this
    by_cases hhit1 : pfx stmtL t = true
    · cases t with
      | nil => exact pfx_nonempty_nil (by decide) hhit1
      | cons d t' =>
        rw [replaceAll_cons_hit hhit1 (by decide)] at h1
        have hlen : (List.drop 1 markerL).length ≤ markerL.length := by
          simp only [List.length_drop]; omega
        have := pfx_append_split h1 hlen
        rw [marker_shift_not_pfx.1] at this
        exact absurd this (by simp)
    · rw [Bool.not_eq_true] at hhit1
      cases t with
      | nil =>
        rw [replaceAll_nil] at h1
        exact pfx_nonempty_nil (by decide) h1
      | cons d t' =>
        rw [replaceAll_cons_miss hhit1] at h1
        have h2 : pfx (List.drop 2 markerL) (replaceAll stmtL markerL t') = true :=
          pfx_drop_step h1 (by decide)
        by_cases hhit2 : pfx stmtL t' = true
        · cases t' with
          | nil => exact pfx_nonempty_nil (by decide) hhit2
          | cons e t'' =>
            rw [replaceAll_cons_hit hhit2 (by decide)] at h2
            have hlen : (List.drop 2 markerL).length ≤ markerL.length := by
              simp only [List.length_drop]; omega
            have := pfx_append_split h2 hlen
            rw [marker_shift_not_pfx.2.1] at this
            exact absurd this (by simp)
        · rw [Bool.not_eq_true] at hhit2
          cases t' with
          | nil =>
            rw [replaceAll_nil] at h2
            exact pfx_nonempty_nil (by decide) h2
          | cons e t'' =>
            rw [replaceAll_cons_miss hhit2] at h2
            have h3 : pfx (List.drop 3 markerL)
                (replaceAll stmtL markerL t'') = true :=
              pfx_drop_step h2 (by decide)
            rw [marker_drop3_not_pfx_output t''] at h3
            exact absurd h3 (by simp)

theorem replaceAll_append_self {b a x : List Char} (hb : b ≠ []) :
    replaceAll b a (b ++ x) = a ++ replaceAll b a x := by
  cases hbe : b with
  | nil => exact absurd hbe hb
  | cons c bs =>
    rw [← hbe]
    have hb2 : b ++ x = c :: (bs ++ x) := by rw [hbe]; rfl
    rw [hb2]
    have hpfx : pfx b (c :: (bs ++ x)) = true := by
      rw [← hb2]
      exact pfx_self_append b x
    rw [replaceAll_cons_hit hpfx hb]
    congr 1
    have : b.length - 1 = bs.length := by rw [hbe]; simp
    rw [this, List.drop_left]

/-- Round trip at content level: Restorer after Disabler is the identity
on every content (proved below in guarded form for contents containing
the statement, which is claim C2's hypothesis). -/
theorem roundtrip_aux :
    ∀ (n : Nat) (s : List Char), s.length ≤ n →
      replaceAll markerL stmtL (replaceAll stmtL markerL s) = s := by
  intro n
  induction n with
  | zero =>
    intro s hs
    have : s = [] := List.eq_nil_of_length_eq_zero (Nat.le_zero.mp hs)
    subst this
    rfl
  | succ n ih =>
    intro s hs
    cases s with
    | nil => rfl
    | cons c t =>
      by_cases hhit : pfx stmtL (c :: t) = true
      · rw [replaceAll_cons_hit hhit (by decide)]
        rw [replaceAll_append_self (by decide)]
        have hrest : (List.drop (stmtL.length - 1) t).length ≤ n := by
          simp only [List.length_drop]
          simp only [List.length_cons] at hs
          have : stmtL.length = 18 := by decide
          omega
        rw [ih _ hrest]
        have := pfx_decomp hhit
        conv_rhs => rw [this]
        congr 1
      · rw [Bool.not_eq_true] at hhit
        rw [replaceAll_cons_miss hhit]
        have hnp : pfx markerL (c :: replaceAll stmtL markerL t) = false := by
          have h1 : pfx markerL (replaceAll stmtL markerL (c :: t)) = false :=
            marker_not_pfx_output hhit
          rw [replaceAll_cons_miss hhit] at h1
          exact h1
        rw [replaceAll_cons_miss hnp]
        have ht : t.length ≤ n := by
          simp only [List.length_cons] at hs
          omega
        rw [ih t ht]

theorem occurs_target_replaceAll_aux {a b : List Char} (ha : a ≠ [])
    (hb : b ≠ []) :
    ∀ (n : Nat) (s : List Char), s.length ≤ n → occurs a s = true →
      occurs b (replaceAll a b s) = true := by
  intro n
  induction n with
  | zero =>
    intro s hs hocc
    have : s = [] := List.eq_nil_of_length_eq_zero (Nat.le_zero.mp hs)
    subst this
    simp only [occurs, List.isEmpty_iff] at hocc
    exact absurd hocc ha
  | succ n ih =>
    intro s hs hocc
    cases s with
    | nil =>
      simp only [occurs, List.isEmpty_iff] at hocc
      exact absurd hocc ha
    | cons c cs =>
      by_cases hp : pfx a (c :: cs) = true
      · rw [replaceAll_cons_hit hp ha]
        have : occurs b b = true := by
          cases hbe : b with
          | nil => exact absurd hbe hb
          | cons d ds =>
            simp only [occurs, Bool.or_eq_true]
            exact Or.inl (pfx_refl _)
        exact occurs_append_left _ this
      · rw [Bool.not_eq_true] at hp
        rw [replaceAll_cons_miss hp]
        have hocc' : occurs a cs = true := by
          simp only [occurs, Bool.or_eq_true] at hocc
          rcases hocc with h | h
          · exact absurd h (by simp [hp])
          · exact h
        have hcs : cs.length ≤ n := by
          simp only [List.length_cons] at hs; omega
        have := ih cs hcs hocc'
        simp only [occurs, Bool.or_eq_true]
        exact Or.inr this

/-- C2: for every content containing the live statement, the Disabler
followed by the Restorer reproduces the content byte for byte. -/
theorem c2_disabler_restorer_roundtrip (c : List Char)
    (h : occurs stmtL c = true) :
    revertTransform (disableTransform c) = c := by
  rw [disableTransform_eq_of_occurs h]
  have hm : occurs markerL (replaceAll stmtL markerL c) = true :=
    occurs_target_replaceAll_aux (by decide) (by decide) c.length c le_rfl h
  have hrt : revertTransform (replaceAll stmtL markerL c) =
      replaceAll markerL stmtL (replaceAll stmtL markerL c) := by
    simp [revertTransform, hm]
  rw [hrt]
  exact roundtrip_aux c.length c le_rfl

/-- C2 witness: a concrete content containing the statement round-trips. -/
theorem c2_witness :
    occurs stmtL "beforeEach(() => { container.reset(); });".data = true ∧
      revertTransform (disableTransform
        "beforeEach(() => { container.reset(); });".data) =
        "beforeEach(() => { container.reset(); });".data :=
  ⟨by decide, c2_disabler_restorer_roundtrip _ (by decide)⟩

theorem stripLit_decomp {l s r : List Char} (h : stripLit l s = some r) :
    s = l ++ r := by
  induction l generalizing s with
  | nil =>
    simp only [stripLit, Option.some.injEq] at h
    simp [h]
  | cons x ls ih =>
    cases s with
    | nil => simp [stripLit] at h
    | cons c cs =>
      simp only [stripLit] at h
      by_cases hc : c = x
      · rw [if_pos hc] at h
        have := ih h
        simp [hc, this]
      · rw [if_neg hc] at h
        exact absurd h (by simp)

theorem takeWhile_all (p : Char → Bool) (s : List Char) :
    (s.takeWhile p).all p = true := by
  induction s with
  | nil => rfl
  | cons c cs ih =>
    by_cases hc : p c = true
    · simp [List.takeWhile_cons, hc, ih]
    · simp [List.takeWhile_cons, hc]

theorem dropWhile_idem (p : Char → Bool) (s : List Char) :
    (s.dropWhile p).dropWhile p = s.dropWhile p := by
  induction s with
  | nil => rfl
  | cons c cs ih =>
    by_cases h : p c = true
    · simp [List.dropWhile_cons, h, ih]
    · simp only [Bool.not_eq_true] at h
      simp [List.dropWhile_cons, h]

theorem removerMatch_decomp {s kept rest : List Char}
    (h : removerMatch s = some (kept, rest)) :
    ∃ w sp, s = remHead ++ w ++ remMid ++ anyStrComma ++ sp ++ rest ∧
      kept = remHead ++ w ++ remMid ∧ w ≠ [] ∧ w.all isWordChar = true ∧
      sp.all pySpace = true ∧ rest.dropWhile pySpace = rest := by
  unfold removerMatch at h
  cases h1 : stripLit remHead s with
  | none => rw [h1] at h; exact absurd h (by simp)
  | some s1 =>
    rw [h1] at h
    simp only at h
    by_cases hw : (s1.takeWhile isWordChar).isEmpty = true
    · rw [if_pos hw] at h; exact absurd h (by simp)
    · rw [if_neg hw] at h
      cases h2 : stripLit remMid (s1.dropWhile isWordChar) with
      | none => rw [h2] at h; exact absurd h (by simp)
      | some s3 =>
        rw [h2] at h
        simp only at h
        cases h3 : stripLit anyStrComma s3 with
        | none => rw [h3] at h; exact absurd h (by simp)
        | some s4 =>
          rw [h3] at h
          simp only [Option.some.injEq, Prod.mk.injEq] at h
          refine ⟨s1.takeWhile isWordChar, s4.takeWhile pySpace, ?_, ?_, ?_, ?_, ?_, ?_⟩
          · have e1 : s = remHead ++ s1 := stripLit_decomp h1
            have e2 : s1 = List.takeWhile isWordChar s1 ++
                List.dropWhile isWordChar s1 :=
              (List.takeWhile_append_dropWhile isWordChar s1).symm
            have e3 : List.dropWhile isWordChar s1 = remMid ++ s3 :=
              stripLit_decomp h2
            have e4 : s3 = anyStrComma ++ s4 := stripLit_decomp h3
            have e5 : s4 = List.takeWhile pySpace s4 ++ rest := by
              rw [← h.2]
              exact (List.takeWhile_append_dropWhile pySpace s4).symm
            rw [e1]
            conv_lhs => rw [e2, e3, e4, e5]
            simp [List.append_assoc]
          · exact h.1.symm
          · simpa [List.isEmpty_iff] using hw
          · exact takeWhile_all _ _
          · exact takeWhile_all _ _
          · rw [← h.2]
            exact dropWhile_idem pySpace s4

theorem removerMatch_rest_lt {s kept rest : List Char}
    (h : removerMatch s = some (kept, rest)) : rest.length < s.length := by
  obtain ⟨w, sp, hs, -, -, -, -, -⟩ := removerMatch_decomp h
  rw [hs]
  simp only [List.length_append]
  have : remHead.length = 27 := by decide
  omega

theorem removerF_fuel_irrel :
    ∀ (f₁ f₂ : Nat) (s : List Char), s.length ≤ f₁ → s.length ≤ f₂ →
      removerF f₁ s = removerF f₂ s := by
  intro f₁
  induction f₁ with
  | zero =>
    intro f₂ s h1 _
    have : s = [] := List.eq_nil_of_length_eq_zero (Nat.le_zero.mp h1)
    subst this
    cases f₂ <;> rfl
  | succ f ih =>
    intro f₂ s h1 h2
    cases s with
    | nil => cases f₂ <;> rfl
    | cons c cs =>
      cases f₂ with
      | zero => exact absurd h2 (by simp)
      | succ f₂' =>
        have hcs : cs.length ≤ f := by
          simp only [List.length_cons] at h1; omega
        have hcs2 : cs.length ≤ f₂' := by
          simp only [List.length_cons] at h2; omega
        simp only [removerF]
        cases hm : removerMatch (c :: cs) with
        | some p =>
          obtain ⟨kept, rest⟩ := p
          have hlt : rest.length < cs.length + 1 := by
            have := @removerMatch_rest_lt (c :: cs) kept rest (by rw [hm])
            simpa using this
          simp only
          rw [ih f₂' rest (by omega) (by omega)]
        | none =>
          simp only
          rw [ih f₂' cs hcs hcs2]

theorem removerT_cons_match {c : Char} {s kept rest : List Char}
    (h : removerMatch (c :: s) = some (kept, rest)) :
    removerTransform (c :: s) = kept ++ removerTransform rest ∧
      removerCount (c :: s) = removerCount rest + 1 := by
  have hlt : rest.length < s.length + 1 := by
    simpa using removerMatch_rest_lt h
  constructor
  · show (removerF (c :: s).length (c :: s)).1 = _
    simp only [List.length_cons, removerF, h]
    rw [removerF_fuel_irrel s.length rest.length rest (by omega) le_rfl]
    rfl
  · show (removerF (c :: s).length (c :: s)).2 = _
    simp only [List.length_cons, removerF, h]
    rw [removerF_fuel_irrel s.length rest.length rest (by omega) le_rfl]
    rfl

theorem removerT_cons_miss {c : Char} {s : List Char}
    (h : removerMatch (c :: s) = none) :
    removerTransform (c :: s) = c :: removerTransform s ∧
      removerCount (c :: s) = removerCount s := by
  constructor
  · show (removerF (c :: s).length (c :: s)).1 = _
    simp only [List.length_cons, removerF, h]
    rfl
  · show (removerF (c :: s).length (c :: s)).2 = _
    simp only [List.length_cons, removerF, h]
    rfl

/-- C4: the Remover on the concrete example line from the spec. -/
theorem c4_remover_concrete :
    removerTransform
      "expect(userMgmtAdapterMock.createUser).toHaveBeenCalledWith(expect.any(String), tenantId, payload)".data =
      "expect(userMgmtAdapterMock.createUser).toHaveBeenCalledWith(tenantId, payload)".data := by
  decide

/-- C5: the Inserter on the concrete example line from the spec
(`policyRepositoryMock` is in the known mock list). -/
theorem c5_inserter_concrete :
    inserterTransform
      "expect(policyRepositoryMock.save).toHaveBeenCalledWith(policy)".data =
      "expect(policyRepositoryMock.save).toHaveBeenCalledWith(expect.any(String), policy)".data := by
  decide

/-- C10: the Inserter's normalization replaces are global.  On a content
where the call-assertion regex matches nowhere (the substitution pass is
the identity), the transformation still collapses a free-standing
`expect.any(String), expect.any(String)` substring. -/
theorem c10_normalization_global :
    insertScan "foo expect.any(String), expect.any(String) bar".data =
      "foo expect.any(String), expect.any(String) bar".data ∧
    inserterTransform "foo expect.any(String), expect.any(String) bar".data =
      "foo expect.any(String) bar".data ∧
    inserterTransform "foo expect.any(String), expect.any(String) bar".data ≠
      "foo expect.any(String), expect.any(String) bar".data := by
  refine ⟨by decide, by decide, by decide⟩

theorem removerCount_zero_transform :
    ∀ (n : Nat) (s : List Char), s.length ≤ n → removerCount s = 0 →
      removerTransform s = s := by
  intro n
  induction n with
  | zero =>
    intro s hs _
    have : s = [] := List.eq_nil_of_length_eq_zero (Nat.le_zero.mp hs)
    subst this
    rfl
  | succ n ih =>
    intro s hs hc
    cases s with
    | nil => rfl
    | cons c cs =>
      cases hm : removerMatch (c :: cs) with
      | some p =>
        have := (@removerT_cons_match c cs p.1 p.2 (by rw [hm])).2
        rw [this] at hc
        exact absurd hc (by simp)
      | none =>
        obtain ⟨h1, h2⟩ := removerT_cons_miss hm
        rw [h1, ih cs (by simp only [List.length_cons] at hs; omega) (h2 ▸ hc)]

/-- C7: no-op safety of all four utilities.  When the utility's pattern
does not apply (Remover: zero regex matches; Disabler: statement absent;
Restorer: marker absent; Inserter: transformation fixes the content),
the content is unchanged and the file is not written back; the Remover
additionally reports zero fixes. -/
theorem c7_noop_safety (c : List Char) :
    (removerCount c = 0 →
      removerTransform c = c ∧ removerWrites c = false) ∧
    (occurs stmtL c = false →
      disableTransform c = c ∧ disableWrites c = false) ∧
    (occurs markerL c = false →
      revertTransform c = c ∧ revertWrites c = false) ∧
    (inserterTransform c = c → inserterWrites c = false) := by
  refine ⟨fun h => ⟨removerCount_zero_transform c.length c le_rfl h, ?_⟩,
    fun h => ⟨by simp [disableTransform, h], by simp [disableWrites, h]⟩,
    fun h => ⟨by simp [revertTransform, h], by simp [revertWrites, h]⟩,
    fun h => by simp [inserterWrites, h]⟩
  simp [removerWrites, h]

/-- C7 witness: a concrete content on which none of the four utilities
has anything to do. -/
theorem c7_witness :
    removerTransform "const x = service.run(input);".data =
        "const x = service.run(input);".data ∧
      removerWrites "const x = service.run(input);".data = false ∧
      disableTransform "const x = service.run(input);".data =
        "const x = service.run(input);".data ∧
      disableWrites "const x = service.run(input);".data = false ∧
      revertTransform "const x = service.run(input);".data =
        "const x = service.run(input);".data ∧
      revertWrites "const x = service.run(input);".data = false ∧
      inserterWrites "const x = service.run(input);".data = false := by
  obtain ⟨h1, h2, h3, h4⟩ := c7_noop_safety "const x = service.run(input);".data
  obtain ⟨h1a, h1b⟩ := h1 (by decide)
  obtain ⟨h2a, h2b⟩ := h2 (by decide)
  obtain ⟨h3a, h3b⟩ := h3 (by decide)
  exact ⟨h1a, h1b, h2a, h2b, h3a, h3b, h4 (by decide)⟩

/-- C1 counterexample: on the file content consisting of the statement
`container.reset();` itself, running the Disabler twice differs from
running it once — the replacement comment still contains the statement
text, so the second run matches inside the comment. -/
theorem c1_counterexample :
    disableTransform (disableTransform stmtL) ≠ disableTransform stmtL := by
  decide

/-- C1 (amended): the Disabler transformation is idempotent exactly on
contents in which `container.reset();` does not occur (where it is a
no-op).  On any content containing the statement, a second application
changes the result again, because the annotated replacement comment
itself contains the statement text. -/
theorem c1_disabler_idempotent_iff (c : List Char) :
    disableTransform (disableTransform c) = disableTransform c ↔
      occurs stmtL c = false := by
  constructor
  · intro h
    by_contra hocc
    rw [Bool.not_eq_false] at hocc
    have h1 : disableTransform c = replaceAll stmtL markerL c :=
      disableTransform_eq_of_occurs hocc
    have h2 : occurs stmtL (disableTransform c) = true := by
      rw [h1]
      exact occurs_self_replaceAll (by decide) (by decide) hocc
    have h3 : disableTransform (disableTransform c) =
        replaceAll stmtL markerL (disableTransform c) :=
      disableTransform_eq_of_occurs h2
    have h4 : (disableTransform c).length <
        (replaceAll stmtL markerL (disableTransform c)).length :=
      replaceAll_length_gt (by decide) (by decide) h2
    have h5 : replaceAll stmtL markerL (disableTransform c) = disableTransform c :=
      h3.symm.trans h
    rw [h5] at h4
    exact lt_irrefl _ h4
  · intro h
    have h1 : disableTransform c = c := by simp [disableTransform, h]
    rw [h1, h1]

theorem map_pyStrip_filter (ls : List (List Char)) :
    (ls.filter (fun f => !(pyStrip f).isEmpty)).map pyStrip =
      (ls.map pyStrip).filter (fun g => !g.isEmpty) := by
  induction ls with
  | nil => rfl
  | cons c cs ih =>
    by_cases h : (pyStrip c).isEmpty = true
    · simp [List.filter_cons, h, ih]
    · simp only [Bool.not_eq_true] at h
      simp [List.filter_cons, h, ih]

theorem toFinset_dedup_eq (l : List (List Char)) :
    l.dedup.toFinset = l.toFinset := by
  ext a
  simp [List.mem_toFinset, List.mem_dedup]

theorem insRun_paths (ps : List (List Char)) :
    ∀ fs : FS, (insRun fs ps).1.map Prod.fst = ps := by
  induction ps with
  | nil => intro fs; rfl
  | cons p ps ih =>
    intro fs
    simp only [insRun, List.map_cons]
    rw [ih]

/-- C8: the Inserter's work list is exactly the set of distinct stripped
non-blank manifest lines; every derived path (converted to native
separators) is attempted in the loop; a nonexistent path only produces
the skip outcome and leaves the filesystem alone (the loop itself
continues, as the second conjunct shows every path receives an
outcome). -/
theorem c8_manifest_derivation (sep : Char) (m : List Char) (fs : FS) :
    (manifestFiles m).toFinset =
      (((splitLines m).map pyStrip).filter (fun g => !g.isEmpty)).toFinset ∧
    (insRun fs ((manifestFiles m).map (sepConvert sep))).1.map Prod.fst =
      (manifestFiles m).map (sepConvert sep) ∧
    (∀ p, fs p = FileEntry.absent →
      (insStep fs p).1 = Outcome.skippedMissing ∧ (insStep fs p).2 = fs) := by
  refine ⟨?_, insRun_paths _ fs, ?_⟩
  · unfold manifestFiles
    rw [toFinset_dedup_eq, map_pyStrip_filter]
  · intro p h
    unfold insStep
    rw [h]
    exact ⟨rfl, rfl⟩

/-- C8 witness: a concrete manifest with duplicate, padded and blank
lines over a filesystem with no files. -/
theorem c8_witness :
    (insRun (fun _ => FileEntry.absent)
        ((manifestFiles "tests/a.spec.ts\n\n tests/a.spec.ts\ntests/b.spec.ts".data).map
          (sepConvert '\\'))).1.map Prod.fst =
      (manifestFiles "tests/a.spec.ts\n\n tests/a.spec.ts\ntests/b.spec.ts".data).map
        (sepConvert '\\') ∧
    (insStep (fun _ => FileEntry.absent) "tests\\a.spec.ts".data).1 =
      Outcome.skippedMissing :=
  ⟨(c8_manifest_derivation '\\'
      "tests/a.spec.ts\n\n tests/a.spec.ts\ntests/b.spec.ts".data
      (fun _ => FileEntry.absent)).2.1,
   ((c8_manifest_derivation '\\'
      "tests/a.spec.ts\n\n tests/a.spec.ts\ntests/b.spec.ts".data
      (fun _ => FileEntry.absent)).2.2 "tests\\a.spec.ts".data rfl).1⟩

/-- C9: a manifest that cannot be opened aborts the run with an unhandled
error before any file is processed (the filesystem is returned
untouched), while an unreadable listed file is caught per file: its
outcome is the printed error for that path, the filesystem is unchanged
by that step, and the loop continues with the remaining paths. -/
theorem c9_error_taxonomy (sep : Char) (fs : FS) :
    ((fs manifestPath = FileEntry.absent ∨
        fs manifestPath = FileEntry.unreadable) →
      (inserterScript sep fs).1 = Except.error () ∧
        (inserterScript sep fs).2 = fs) ∧
    (∀ p ps, fs p = FileEntry.unreadable →
      (insStep fs p).1 = Outcome.errored ∧ (insStep fs p).2 = fs ∧
      (insRun fs (p :: ps)).1 = (p, Outcome.errored) :: (insRun fs ps).1) := by
  constructor
  · intro h
    rcases h with h | h <;>
      (unfold inserterScript; rw [h]; exact ⟨rfl, rfl⟩)
  · intro p ps h
    have hstep : insStep fs p = (Outcome.errored, fs) := by
      unfold insStep
      rw [h]
    refine ⟨by rw [hstep], by rw [hstep], ?_⟩
    simp only [insRun, hstep]

/-- C9 witness: with every path unreadable, opening the manifest itself
fails and the run aborts; a directly attempted unreadable file yields the
per-file error outcome. -/
theorem c9_witness :
    (inserterScript '/' (fun _ => FileEntry.unreadable)).1 = Except.error () ∧
    (insStep (fun _ => FileEntry.unreadable) "tests/x.spec.ts".data).1 =
      Outcome.errored :=
  ⟨((c9_error_taxonomy '/' (fun _ => FileEntry.unreadable)).1 (Or.inr rfl)).1,
   ((c9_error_taxonomy '/' (fun _ => FileEntry.unreadable)).2
      "tests/x.spec.ts".data [] rfl).1⟩


theorem pfx_append_cancel (a x y : List Char) :
    pfx (a ++ x) (a ++ y) = pfx x y := by
  induction a with
  | nil => rfl
  | cons c as ih => simp [pfx, ih]

theorem pfx_eq_take {x y : List Char} (h : pfx x y = true) :
    x = y.take x.length := by
  induction x generalizing y with
  | nil => rfl
  | cons c xs ih =>
    cases y with
    | nil => simp [pfx] at h
    | cons d ys =>
      obtain ⟨he, hp⟩ := pfx_cons_elim h
      simp only [List.length_cons, List.take_succ_cons]
      rw [he, ← ih hp]

theorem pfx_append_cases {l x y : List Char} (h : pfx l (x ++ y) = true) :
    pfx l x = true ∨ (pfx x l = true ∧ pfx (l.drop x.length) y = true) := by
  induction x generalizing l with
  | nil => exact Or.inr ⟨rfl, h⟩
  | cons c x' ih =>
    cases l with
    | nil => exact Or.inl rfl
    | cons d l' =>
      obtain ⟨he, hp⟩ := pfx_cons_elim h
      rcases ih hp with h1 | ⟨h1, h2⟩
      · exact Or.inl (by simp [pfx, he, h1])
      · refine Or.inr ⟨by simp [pfx, he.symm, h1], ?_⟩
        simpa using h2

theorem pfx_take_of_append {l x y : List Char} (h : pfx l (x ++ y) = true) :
    pfx (l.take x.length) x = true := by
  induction x generalizing l with
  | nil => simp [pfx]
  | cons c x' ih =>
    cases l with
    | nil => simp [pfx]
    | cons d l' =>
      obtain ⟨he, hp⟩ := pfx_cons_elim h
      simp only [List.length_cons, List.take_succ_cons, pfx, Bool.and_eq_true,
        decide_eq_true_eq]
      exact ⟨he, ih hp⟩

theorem all_of_pfx {l x : List Char} {p : Char → Bool} (h : pfx l x = true)
    (hx : x.all p = true) : l.all p = true := by
  induction l generalizing x with
  | nil => rfl
  | cons c ls ih =>
    cases x with
    | nil => simp [pfx] at h
    | cons d xs =>
      obtain ⟨he, hp⟩ := pfx_cons_elim h
      simp only [List.all_cons, Bool.and_eq_true] at hx ⊢
      exact ⟨he ▸ hx.1, ih hp hx.2⟩

theorem all_drop {l : List Char} {p : Char → Bool} (h : l.all p = true)
    (k : Nat) : (l.drop k).all p = true := by
  induction l generalizing k with
  | nil => simp
  | cons c ls ih =>
    cases k with
    | zero => exact h
    | succ k' =>
      simp only [List.all_cons, Bool.and_eq_true] at h
      simpa using ih h.2 k'

theorem stripLit_none_of_not_pfx {l s : List Char} (h : pfx l s = false) :
    stripLit l s = none := by
  induction l generalizing s with
  | nil => simp [pfx] at h
  | cons c ls ih =>
    cases s with
    | nil => rfl
    | cons d ds =>
      simp only [stripLit]
      by_cases hd : d = c
      · rw [if_pos hd]
        refine ih ?_
        simpa [pfx, hd] using h
      · rw [if_neg hd]

theorem stripLit_pfx {l s r : List Char} (h : stripLit l s = some r) :
    pfx l s = true := by
  rw [stripLit_decomp h]
  exact pfx_self_append l r

theorem stripLit_append (l : List Char) :
    ∀ s y : List Char, stripLit l (s ++ y) =
      match stripLit l s with
      | some r => some (r ++ y)
      | none =>
        if pfx s l = true then stripLit (l.drop s.length) y else none := by
  induction l with
  | nil =>
    intro s y
    cases s with
    | nil => rfl
    | cons c cs => rfl
  | cons c ls ih =>
    intro s y
    cases s with
    | nil => simp [stripLit, pfx]
    | cons d ds =>
      simp only [List.cons_append, stripLit]
      by_cases hd : d = c
      · rw [if_pos hd, if_pos hd]
        simp only [List.append_eq]
        rw [ih ds y]
        cases h2 : stripLit ls ds with
        | some r => rfl
        | none =>
          simp only
          have h3 : pfx (d :: ds) (c :: ls) = pfx ds ls := by
            simp [pfx, hd]
          rw [h3]
          rfl
      · rw [if_neg hd, if_neg hd]
        have h3 : pfx (d :: ds) (c :: ls) = false := by
          simp [pfx, hd]
        rw [h3]
        rfl

theorem stripLit_full (l : List Char) : stripLit l l = some [] := by
  induction l with
  | nil => rfl
  | cons c ls ih => simp [stripLit, ih]

theorem takeWhile_append_all {p : Char → Bool} {s : List Char}
    (y : List Char) (h : s.all p = true) :
    (s ++ y).takeWhile p = s ++ y.takeWhile p := by
  induction s with
  | nil => rfl
  | cons c cs ih =>
    simp only [List.all_cons, Bool.and_eq_true] at h
    simp [List.takeWhile_cons, h.1, ih h.2]

theorem dropWhile_append_all {p : Char → Bool} {s : List Char}
    (y : List Char) (h : s.all p = true) :
    (s ++ y).dropWhile p = y.dropWhile p := by
  induction s with
  | nil => rfl
  | cons c cs ih =>
    simp only [List.all_cons, Bool.and_eq_true] at h
    simp [List.dropWhile_cons, h.1, ih h.2]

theorem takeWhile_append_not_all {p : Char → Bool} {s : List Char}
    (y : List Char) (h : s.all p = false) :
    (s ++ y).takeWhile p = s.takeWhile p := by
  induction s with
  | nil => simp at h
  | cons c cs ih =>
    simp only [List.all_cons, Bool.and_eq_false_iff] at h
    rcases h with h | h
    · simp [List.takeWhile_cons, h]
    · by_cases hc : p c = true
      · simp [List.takeWhile_cons, hc, ih h]
      · simp only [Bool.not_eq_true] at hc
        simp [List.takeWhile_cons, hc]

theorem dropWhile_append_not_all {p : Char → Bool} {s : List Char}
    (y : List Char) (h : s.all p = false) :
    (s ++ y).dropWhile p = s.dropWhile p ++ y := by
  induction s with
  | nil => simp at h
  | cons c cs ih =>
    simp only [List.all_cons, Bool.and_eq_false_iff] at h
    rcases h with h | h
    · simp [List.dropWhile_cons, h]
    · by_cases hc : p c = true
      · simp [List.dropWhile_cons, hc, ih h]
      · simp only [Bool.not_eq_true] at hc
        simp [List.dropWhile_cons, hc]

theorem dropWhile_nil_of_all {p : Char → Bool} {s : List Char}
    (h : s.all p = true) : s.dropWhile p = [] := by
  induction s with
  | nil => rfl
  | cons c cs ih =>
    simp only [List.all_cons, Bool.and_eq_true] at h
    simp [List.dropWhile_cons, h.1, ih h.2]


theorem removerMatch_none_of_not_ep {t : List Char}
    (h : pfx expectParen t = false) : removerMatch t = none := by
  have hrh : pfx remHead t = false := by
    by_contra hc
    rw [Bool.not_eq_false] at hc
    have h2 : pfx expectParen t = true := pfx_trans (by decide) hc
    rw [h] at h2
    exact absurd h2 (by simp)
  unfold removerMatch
  rw [stripLit_none_of_not_pfx hrh]

theorem noMatch_head {c : Char} {rest : List Char} (hc : c ≠ 'e') :
    removerMatch (c :: rest) = none := by
  apply removerMatch_none_of_not_ep
  show pfx ('e' :: "xpect(".data) (c :: rest) = false
  simp only [pfx, Bool.and_eq_false_iff]
  exact Or.inl (decide_eq_false (Ne.symm hc))

theorem noMatch_head2 {c2 : Char} {rest : List Char} (hc : c2 ≠ 'x') :
    removerMatch ('e' :: c2 :: rest) = none := by
  apply removerMatch_none_of_not_ep
  show pfx ('e' :: 'x' :: "pect(".data) ('e' :: c2 :: rest) = false
  simp only [pfx, Bool.and_eq_false_iff]
  refine Or.inr (Or.inl (decide_eq_false (Ne.symm hc)))

theorem noMatch_word_then {n' : List Char} {c : Char} (rest : List Char)
    (hn : n'.all isWordChar = true)
    (hc : expectParen.all (fun d => decide (d ≠ c)) = true) :
    removerMatch (n' ++ c :: rest) = none := by
  apply removerMatch_none_of_not_ep
  by_contra hp
  rw [Bool.not_eq_false] at hp
  rcases pfx_append_cases hp with h1 | ⟨h1, h2⟩
  · have h3 := all_of_pfx h1 hn
    exact absurd h3 (by decide)
  · have hlen : n'.length ≤ expectParen.length := pfx_length_le h1
    by_cases heq : n'.length = expectParen.length
    · have h4 : n' = expectParen := by
        rw [pfx_eq_take h1, heq, List.take_length]
      rw [h4] at hn
      exact absurd hn (by decide)
    · have hlt : n'.length < expectParen.length := lt_of_le_of_ne hlen heq
      rw [List.drop_eq_getElem_cons hlt] at h2
      obtain ⟨hce, -⟩ := pfx_cons_elim h2
      have hmem : expectParen[n'.length] ∈ expectParen :=
        List.getElem_mem hlt
      have h5 := List.all_eq_true.mp hc _ hmem
      simp only [decide_eq_true_eq] at h5
      exact h5 hce

theorem word_dot_eq {tn n r2 : List Char}
    (htn : tn.all isWordChar = true) (hn : n.all isWordChar = true)
    (h : pfx (tn ++ ['.']) (n ++ '.' :: r2) = true) : tn = n := by
  induction tn generalizing n with
  | nil =>
    cases n with
    | nil => rfl
    | cons c n' =>
      obtain ⟨hce, -⟩ := pfx_cons_elim (x := n' ++ '.' :: r2) h
      simp only [List.all_cons, Bool.and_eq_true] at hn
      rw [← hce] at hn
      exact absurd hn.1 (by decide)
  | cons a tn' ih =>
    cases n with
    | nil =>
      obtain ⟨hce, -⟩ := pfx_cons_elim (x := r2) h
      simp only [List.all_cons, Bool.and_eq_true] at htn
      rw [hce] at htn
      exact absurd htn.1 (by decide)
    | cons c n' =>
      obtain ⟨hce, hp⟩ := pfx_cons_elim h
      simp only [List.all_cons, Bool.and_eq_true] at htn hn
      rw [hce, ih htn.2 hn.2 hp]

theorem noMatch_at_occ {name : List Char} (rest : List Char)
    (hnw : name.all isWordChar = true) (hne : name ≠ tnameL) :
    removerMatch (expectParen ++ (name ++ ('.' :: rest))) = none := by
  have hpf : pfx remHead (expectParen ++ (name ++ ('.' :: rest))) = false := by
    by_contra hc
    rw [Bool.not_eq_false] at hc
    have hre : remHead = expectParen ++ (tnameL ++ ['.']) := by decide
    rw [hre] at hc
    have hc2 : pfx (tnameL ++ ['.']) (name ++ ('.' :: rest)) = true := by
      rw [← pfx_append_cancel expectParen]
      exact hc
    exact hne (word_dot_eq (by decide) hnw hc2).symm
  unfold removerMatch
  rw [stripLit_none_of_not_pfx hpf]

theorem dCross1 : ∀ k, k < remHead.length → 1 ≤ k →
    pfx ((remHead.drop k).take 7) expectParen = false := by decide

theorem dCross2 : ∀ k, k < anyStrComma.length →
    pfx ((anyStrComma.drop k).take 7) expectParen = false := by decide

theorem dCross3 : ∀ k, k < remMid.length →
    pfx ((remMid.drop k).take 7) expectParen = false := by decide

theorem dRTail : ∀ k, k < remTailLit.length →
    pfx (expectParen.take (remTailLit.length - k)) (remTailLit.drop k) = false := by
  decide

theorem noMatch_remTail (v : List Char) :
    ∀ k, k < remTailLit.length →
      removerMatch (remTailLit.drop k ++ v) = none := by
  intro k hk
  apply removerMatch_none_of_not_ep
  by_contra hp
  rw [Bool.not_eq_false] at hp
  have h2 := pfx_take_of_append hp
  rw [List.length_drop] at h2
  rw [dRTail k hk] at h2
  exact absurd h2 (by simp)

theorem scan_append_of_none :
    ∀ (n : Nat) (x y : List Char), x.length ≤ n →
      (∀ k, k < x.length → removerMatch (x.drop k ++ y) = none) →
      removerTransform (x ++ y) = x ++ removerTransform y := by
  intro n
  induction n with
  | zero =>
    intro x y hx _
    have : x = [] := List.eq_nil_of_length_eq_zero (Nat.le_zero.mp hx)
    subst this
    rfl
  | succ n ih =>
    intro x y hx hnone
    cases x with
    | nil => rfl
    | cons c x' =>
      have h0 : removerMatch (c :: (x' ++ y)) = none := by
        have := hnone 0 (by simp)
        simpa using this
      rw [List.cons_append, (removerT_cons_miss h0).1]
      rw [ih x' y (by simp only [List.length_cons] at hx; omega) ?_]
      · rfl
      · intro k hk
        have := hnone (k + 1) (by simp only [List.length_cons]; omega)
        simpa using this


theorem scan_occ {name w : List Char} (v : List Char)
    (hnw : name.all isWordChar = true) (hne : name ≠ tnameL)
    (hww : w.all isWordChar = true) :
    removerTransform (occOf name w ++ v) = occOf name w ++ removerTransform v := by
  have hshape : occOf name w ++ v =
      expectParen ++ (name ++ ('.' :: (w ++ (remTailLit ++ v)))) := by
    simp [occOf, List.append_assoc]
  have hrt : ∀ z : List Char, remTailLit ++ z =
      ')' :: (".toHaveBeenCalledWith(expect.any(String), ".data ++ z) := by
    intro z
    have h1 : remTailLit =
        ')' :: ".toHaveBeenCalledWith(expect.any(String), ".data := by decide
    rw [h1, List.cons_append]
  have hyp1 : ∀ k, k < expectParen.length →
      removerMatch (expectParen.drop k ++
        (name ++ ('.' :: (w ++ (remTailLit ++ v))))) = none := by
    intro k hk
    have hk7 : k < 7 := by
      have h7 : expectParen.length = 7 := by decide
      omega
    interval_cases k
    · simpa using noMatch_at_occ (w ++ (remTailLit ++ v)) hnw hne
    · rw [show List.drop 1 expectParen = 'x' :: "pect(".data from by decide,
        List.cons_append]
      exact noMatch_head (by decide)
    · rw [show List.drop 2 expectParen = 'p' :: "ect(".data from by decide,
        List.cons_append]
      exact noMatch_head (by decide)
    · rw [show List.drop 3 expectParen = 'e' :: 'c' :: "t(".data from by decide]
      simp only [List.cons_append]
      exact noMatch_head2 (by decide)
    · rw [show List.drop 4 expectParen = 'c' :: "t(".data from by decide,
        List.cons_append]
      exact noMatch_head (by decide)
    · rw [show List.drop 5 expectParen = 't' :: "(".data from by decide,
        List.cons_append]
      exact noMatch_head (by decide)
    · rw [show List.drop 6 expectParen = '(' :: [] from by decide,
        List.cons_append]
      exact noMatch_head (by decide)
  have hyp2 : ∀ k, k < name.length →
      removerMatch (name.drop k ++ ('.' :: (w ++ (remTailLit ++ v)))) = none :=
    fun k _ => noMatch_word_then _ (all_drop hnw k) (by decide)
  have hyp4 : ∀ k, k < w.length →
      removerMatch (w.drop k ++ (remTailLit ++ v)) = none := by
    intro k _
    rw [hrt v]
    exact noMatch_word_then _ (all_drop hww k) (by decide)
  have hdot : removerTransform ('.' :: (w ++ (remTailLit ++ v))) =
      '.' :: removerTransform (w ++ (remTailLit ++ v)) :=
    (removerT_cons_miss (noMatch_head (by decide))).1
  rw [hshape,
    scan_append_of_none expectParen.length expectParen _ le_rfl hyp1,
    scan_append_of_none name.length name _ le_rfl hyp2,
    hdot,
    scan_append_of_none w.length w _ le_rfl hyp4,
    scan_append_of_none remTailLit.length remTailLit v le_rfl (noMatch_remTail v)]
  simp [occOf, List.append_assoc]


theorem takeWhile_self_of_all {p : Char → Bool} {s : List Char}
    (h : s.all p = true) : s.takeWhile p = s := by
  induction s with
  | nil => rfl
  | cons c cs ih =>
    simp only [List.all_cons, Bool.and_eq_true] at h
    simp [List.takeWhile_cons, h.1, ih h.2]

theorem stripLit_self_append (l r : List Char) :
    stripLit l (l ++ r) = some r := by
  rw [stripLit_append l l r, stripLit_full]
  simp

theorem dropWhile_length_le (p : Char → Bool) (s : List Char) :
    (s.dropWhile p).length ≤ s.length := by
  induction s with
  | nil => exact le_rfl
  | cons c cs ih =>
    by_cases h : p c = true
    · simp only [List.dropWhile_cons, h, if_true]
      exact le_trans ih (by simp)
    · simp only [Bool.not_eq_true] at h
      simp [List.dropWhile_cons, h]

theorem dropWhile_fixed_cons_false {p : Char → Bool} {c : Char}
    {r : List Char} (h : (c :: r).dropWhile p = c :: r) : p c = false := by
  by_contra hc
  rw [Bool.not_eq_false] at hc
  rw [List.dropWhile_cons, if_pos hc] at h
  have h1 := congrArg List.length h
  have h2 : (List.dropWhile p r).length ≤ r.length := dropWhile_length_le p r
  simp only [List.length_cons] at h1
  omega

theorem dropWhile_fix_append {p : Char → Bool} {t y : List Char}
    (ht : t.dropWhile p = t) (hy : y.dropWhile p = y) :
    (t ++ y).dropWhile p = t ++ y := by
  cases t with
  | nil => simpa using hy
  | cons c r =>
    have hc := dropWhile_fixed_cons_false ht
    simp [List.dropWhile_cons, hc]

theorem occY_shape (name w v : List Char) :
    occOf name w ++ v =
      expectParen ++ (name ++ ('.' :: (w ++ (remTailLit ++ v)))) := by
  simp [occOf, List.append_assoc]

theorem occY_dropWhile_space (name w v : List Char) :
    (occOf name w ++ v).dropWhile pySpace = occOf name w ++ v := by
  rw [occY_shape]
  rw [dropWhile_append_not_all _ (by decide)]
  rw [show List.dropWhile pySpace expectParen = expectParen from by decide]

theorem occY_takeWhile_word (name w v : List Char) :
    (occOf name w ++ v).takeWhile isWordChar = "expect".data := by
  rw [occY_shape]
  rw [takeWhile_append_not_all _ (by decide)]
  decide

theorem occY_dropWhile_word (name w v : List Char) :
    (occOf name w ++ v).dropWhile isWordChar =
      '(' :: (name ++ ('.' :: (w ++ (remTailLit ++ v)))) := by
  rw [occY_shape]
  rw [dropWhile_append_not_all _ (by decide)]
  rw [show List.dropWhile isWordChar expectParen = ['('] from by decide]
  rfl

theorem removerMatch_build (w0 sp t : List Char) (hw0 : w0 ≠ [])
    (hw0w : w0.all isWordChar = true) (hsp : sp.all pySpace = true) :
    removerMatch (remHead ++ (w0 ++ (remMid ++ (anyStrComma ++ (sp ++ t))))) =
      some (remHead ++ w0 ++ remMid, t.dropWhile pySpace) := by
  unfold removerMatch
  rw [stripLit_self_append]
  simp only
  rw [takeWhile_append_all _ hw0w, dropWhile_append_all _ hw0w]
  rw [takeWhile_append_not_all _
    (show remMid.all isWordChar = false from by decide)]
  rw [show List.takeWhile isWordChar remMid = [] from by decide]
  rw [dropWhile_append_not_all _
    (show remMid.all isWordChar = false from by decide)]
  rw [show List.dropWhile isWordChar remMid = remMid from by decide]
  rw [List.append_nil]
  have hne : w0.isEmpty = false := by
    cases w0 with
    | nil => exact absurd rfl hw0
    | cons a as => rfl
  rw [hne]
  simp only [Bool.false_eq_true, if_false]
  rw [stripLit_self_append]
  simp only
  rw [stripLit_self_append]
  simp only
  rw [dropWhile_append_all _ hsp]


theorem removerMatch_extend_some {u' kept rest0 name w : List Char}
    (v : List Char) (h : removerMatch u' = some (kept, rest0)) :
    removerMatch (u' ++ (occOf name w ++ v)) =
      some (kept, rest0 ++ (occOf name w ++ v)) := by
  obtain ⟨w0, sp, hs, hk, hw0, hw0w, hspw, hfix⟩ := removerMatch_decomp h
  have hshape : u' ++ (occOf name w ++ v) =
      remHead ++ (w0 ++ (remMid ++ (anyStrComma ++
        (sp ++ (rest0 ++ (occOf name w ++ v)))))) := by
    rw [hs]
    simp [List.append_assoc]
  have hdw : (rest0 ++ (occOf name w ++ v)).dropWhile pySpace =
      rest0 ++ (occOf name w ++ v) :=
    dropWhile_fix_append hfix (occY_dropWhile_space name w v)
  rw [hshape, removerMatch_build w0 sp _ hw0 hw0w hspw, hdw, hk]

theorem removerMatch_extend_none {u' name w : List Char}
    (v : List Char) (hu : u' ≠ []) (h : removerMatch u' = none) :
    removerMatch (u' ++ (occOf name w ++ v)) = none := by
  unfold removerMatch at h ⊢
  rw [stripLit_append remHead u' (occOf name w ++ v)]
  cases h1 : stripLit remHead u' with
  | none =>
    simp only
    by_cases hpu : pfx u' remHead = true
    · rw [if_pos hpu]
      by_cases hfull : u'.length = remHead.length
      · exfalso
        have he : u' = remHead := by
          rw [pfx_eq_take hpu, hfull, List.take_length]
        rw [he, stripLit_full] at h1
        exact absurd h1 (by simp)
      · have hlt : u'.length < remHead.length :=
          lt_of_le_of_ne (pfx_length_le hpu) hfull
        have h1k : 1 ≤ u'.length := by
          cases u' with
          | nil => exact absurd rfl hu
          | cons a as => simp
        have hnp : pfx (remHead.drop u'.length) (occOf name w ++ v) = false := by
          by_contra hc
          rw [Bool.not_eq_false] at hc
          rw [occY_shape] at hc
          have h2 := pfx_take_of_append hc
          rw [show expectParen.length = 7 from by decide] at h2
          rw [dCross1 u'.length hlt h1k] at h2
          exact absurd h2 (by simp)
        rw [stripLit_none_of_not_pfx hnp]
    · rw [Bool.not_eq_true] at hpu
      rw [hpu]
      simp
  | some s1 =>
    rw [h1] at h
    simp only at h ⊢
    by_cases hall : s1.all isWordChar = true
    · rw [takeWhile_append_all _ hall, dropWhile_append_all _ hall]
      rw [occY_takeWhile_word, occY_dropWhile_word]
      have hni : (s1 ++ "expect".data).isEmpty = false := by
        cases s1 <;> rfl
      rw [hni]
      simp only [Bool.false_eq_true, if_false]
      rw [show remMid = ')' :: ".toHaveBeenCalledWith(".data from by decide]
      simp [stripLit]
    · have hallf : s1.all isWordChar = false := by
        rw [Bool.not_eq_true] at hall
        exact hall
      rw [takeWhile_append_not_all _ hallf, dropWhile_append_not_all _ hallf]
      by_cases hemp : (s1.takeWhile isWordChar).isEmpty = true
      · rw [hemp]
        simp
      · rw [Bool.not_eq_true] at hemp
        rw [hemp] at h ⊢
        simp only [Bool.false_eq_true, if_false] at h ⊢
        rw [stripLit_append remMid (s1.dropWhile isWordChar) (occOf name w ++ v)]
        cases h2 : stripLit remMid (s1.dropWhile isWordChar) with
        | none =>
          simp only
          by_cases hps2 : pfx (s1.dropWhile isWordChar) remMid = true
          · rw [if_pos hps2]
            by_cases hfull : (s1.dropWhile isWordChar).length = remMid.length
            · exfalso
              have he : s1.dropWhile isWordChar = remMid := by
                rw [pfx_eq_take hps2, hfull, List.take_length]
              rw [he, stripLit_full] at h2
              exact absurd h2 (by simp)
            · have hlt : (s1.dropWhile isWordChar).length < remMid.length :=
                lt_of_le_of_ne (pfx_length_le hps2) hfull
              have hnp : pfx (remMid.drop (s1.dropWhile isWordChar).length)
                  (occOf name w ++ v) = false := by
                by_contra hc
                rw [Bool.not_eq_false] at hc
                rw [occY_shape] at hc
                have h3 := pfx_take_of_append hc
                rw [show expectParen.length = 7 from by decide] at h3
                rw [dCross3 _ hlt] at h3
                exact absurd h3 (by simp)
              rw [stripLit_none_of_not_pfx hnp]
          · rw [Bool.not_eq_true] at hps2
            rw [hps2]
            simp
        | some s3 =>
          rw [h2] at h
          simp only at h ⊢
          rw [stripLit_append anyStrComma s3 (occOf name w ++ v)]
          cases h3 : stripLit anyStrComma s3 with
          | none =>
            simp only
            by_cases hps3 : pfx s3 anyStrComma = true
            · rw [if_pos hps3]
              by_cases hfull : s3.length = anyStrComma.length
              · exfalso
                have he : s3 = anyStrComma := by
                  rw [pfx_eq_take hps3, hfull, List.take_length]
                rw [he, stripLit_full] at h3
                exact absurd h3 (by simp)
              · have hlt : s3.length < anyStrComma.length :=
                  lt_of_le_of_ne (pfx_length_le hps3) hfull
                have hnp : pfx (anyStrComma.drop s3.length)
                    (occOf name w ++ v) = false := by
                  by_contra hc
                  rw [Bool.not_eq_false] at hc
                  rw [occY_shape] at hc
                  have h4 := pfx_take_of_append hc
                  rw [show expectParen.length = 7 from by decide] at h4
                  rw [dCross2 _ hlt] at h4
                  exact absurd h4 (by simp)
                rw [stripLit_none_of_not_pfx hnp]
            · rw [Bool.not_eq_true] at hps3
              rw [hps3]
              simp
          | some s4 =>
            rw [h3] at h
            simp only at h
            exact absurd h (by simp)


theorem scan_respects {name w : List Char} (hnw : name.all isWordChar = true)
    (hne : name ≠ tnameL) (hww : w.all isWordChar = true) :
    ∀ (n : Nat) (u v : List Char), u.length ≤ n →
      removerTransform (u ++ (occOf name w ++ v)) =
        removerTransform u ++ (occOf name w ++ removerTransform v) := by
  intro n
  induction n with
  | zero =>
    intro u v hu
    have hu0 : u = [] := List.eq_nil_of_length_eq_zero (Nat.le_zero.mp hu)
    subst hu0
    simpa using scan_occ v hnw hne hww
  | succ n ih =>
    intro u v hu
    cases u with
    | nil => simpa using scan_occ v hnw hne hww
    | cons c u' =>
      cases hm : removerMatch (c :: u') with
      | some p =>
        obtain ⟨kept, rest⟩ := p
        have hext := @removerMatch_extend_some (c :: u') kept rest name w v hm
        rw [List.cons_append] at hext
        have hstep := (removerT_cons_match hext).1
        rw [List.cons_append, hstep]
        have hrl : rest.length < u'.length + 1 := by
          simpa using removerMatch_rest_lt hm
        rw [ih rest v (by simp only [List.length_cons] at hu; omega)]
        rw [(removerT_cons_match hm).1]
        simp [List.append_assoc]
      | none =>
        have hext := @removerMatch_extend_none (c :: u') name w v (by simp) hm
        rw [List.cons_append] at hext
        have hstep := (removerT_cons_miss hext).1
        rw [List.cons_append, hstep]
        rw [ih u' v (by simp only [List.length_cons] at hu; omega)]
        rw [(removerT_cons_miss hm).1]
        rfl

/-- C6: targeted scope of the Remover.  An occurrence of the
call-assertion pattern for any word-identifier other than
`userMgmtAdapterMock` is preserved character for character: the Remover
output on `u ++ occurrence ++ v` is the transformed `u`, the untouched
occurrence, and the transformed `v`. -/
theorem c6_remover_targeted_scope (u v name w : List Char)
    (hnw : name.all isWordChar = true)
    (hne : name ≠ "userMgmtAdapterMock".data) (hnn : name ≠ [])
    (hww : w.all isWordChar = true) (hwn : w ≠ []) :
    removerTransform (u ++ (occOf name w ++ v)) =
      removerTransform u ++ (occOf name w ++ removerTransform v) :=
  scan_respects hnw hne hww u.length u v le_rfl

/-- C6 witness: a `policyRepositoryMock` assertion between two text
fragments survives the Remover unchanged. -/
theorem c6_witness :
    removerTransform ("const a = 1; ".data ++
        (occOf "policyRepositoryMock".data "save".data ++ "policy);".data)) =
      removerTransform "const a = 1; ".data ++
        (occOf "policyRepositoryMock".data "save".data ++
          removerTransform "policy);".data) :=
  c6_remover_targeted_scope _ _ _ _ (by decide) (by decide) (by decide)
    (by decide) (by decide)


theorem firstLitPfx_decomp {ms : List (List Char)} {t n0 r0 : List Char}
    (h : firstLitPfx ms t = some (n0, r0)) : t = n0 ++ r0 := by
  induction ms with
  | nil => exact absurd h (by simp [firstLitPfx])
  | cons m ms ih =>
    simp only [firstLitPfx] at h
    cases hm : stripLit m t with
    | some r1 =>
      rw [hm] at h
      simp only [Option.some.injEq, Prod.mk.injEq] at h
      rw [← h.1, ← h.2]
      exact stripLit_decomp hm
    | none =>
      rw [hm] at h
      exact ih h

theorem insMatch_decomp_append {s : List Char} {p : List Char × List Char}
    (h : insMatch s = some p) : s = p.1 ++ p.2 ∧ p.1 ≠ [] := by
  unfold insMatch at h
  cases h1 : stripLit insHeadE s with
  | none => rw [h1] at h; exact absurd h (by simp)
  | some s1 =>
    rw [h1] at h
    simp only at h
    cases h2 : stripLit ['('] (s1.dropWhile pySpace) with
    | none => rw [h2] at h; exact absurd h (by simp)
    | some s3 =>
      rw [h2] at h
      simp only at h
      cases h3 : firstLitPfx mocksL (s3.dropWhile pySpace) with
      | none => rw [h3] at h; exact absurd h (by simp)
      | some q =>
        rw [h3] at h
        simp only at h
        obtain ⟨name, s5⟩ := q
        cases h4 : stripLit ['.'] s5 with
        | none => rw [h4] at h; exact absurd h (by simp)
        | some s6 =>
          rw [h4] at h
          simp only at h
          by_cases hw : (s6.takeWhile isWordChar).isEmpty = true
          · rw [hw] at h
            simp only [if_true] at h
            exact absurd h (by simp)
          · rw [Bool.not_eq_true] at hw
            rw [hw] at h
            simp only [Bool.false_eq_true, if_false] at h
            cases h5 : stripLit [')']
                ((s6.dropWhile isWordChar).dropWhile pySpace) with
            | none => rw [h5] at h; exact absurd h (by simp)
            | some s9 =>
              rw [h5] at h
              simp only at h
              cases h6 : stripLit insTailLit s9 with
              | none => rw [h6] at h; exact absurd h (by simp)
              | some s10 =>
                rw [h6] at h
                simp only at h
                cases h7 : stripLit ['('] (s10.dropWhile pySpace) with
                | none => rw [h7] at h; exact absurd h (by simp)
                | some s12 =>
                  rw [h7] at h
                  simp only [Option.some.injEq] at h
                  have e1 : s = insHeadE ++ s1 := stripLit_decomp h1
                  have e2 : s1 = s1.takeWhile pySpace ++ s1.dropWhile pySpace :=
                    (List.takeWhile_append_dropWhile pySpace s1).symm
                  have e3 : s1.dropWhile pySpace = '(' :: s3 := stripLit_decomp h2
                  have e4 : s3 = s3.takeWhile pySpace ++ s3.dropWhile pySpace :=
                    (List.takeWhile_append_dropWhile pySpace s3).symm
                  have e5 : s3.dropWhile pySpace = name ++ s5 :=
                    firstLitPfx_decomp h3
                  have e6 : s5 = '.' :: s6 := stripLit_decomp h4
                  have e7 : s6 = s6.takeWhile isWordChar ++
                      s6.dropWhile isWordChar :=
                    (List.takeWhile_append_dropWhile isWordChar s6).symm
                  have e8 : s6.dropWhile isWordChar =
                      (s6.dropWhile isWordChar).takeWhile pySpace ++
                        (s6.dropWhile isWordChar).dropWhile pySpace :=
                    (List.takeWhile_append_dropWhile pySpace _).symm
                  have e9 : (s6.dropWhile isWordChar).dropWhile pySpace =
                      ')' :: s9 := stripLit_decomp h5
                  have e10 : s9 = insTailLit ++ s10 := stripLit_decomp h6
                  have e11 : s10 = s10.takeWhile pySpace ++
                      s10.dropWhile pySpace :=
                    (List.takeWhile_append_dropWhile pySpace s10).symm
                  have e12 : s10.dropWhile pySpace = '(' :: s12 :=
                    stripLit_decomp h7
                  constructor
                  · rw [← h]
                    simp only
                    rw [e1]
                    conv_lhs => rw [e2, e3, e4, e5, e6, e7]
                    conv_lhs => rw [e8, e9, e10, e11, e12]
                    simp [List.append_assoc]
                  · rw [← h]
                    simp only
                    intro hcontra
                    have hlen := congrArg List.length hcontra
                    simp only [List.length_append, List.length_cons,
                      List.length_nil] at hlen
                    have h6l : insHeadE.length = 6 := by decide
                    omega

theorem insMatch_rest_lt {s : List Char} {p : List Char × List Char}
    (h : insMatch s = some p) : p.2.length < s.length := by
  obtain ⟨hs, hne⟩ := insMatch_decomp_append h
  have hlen := congrArg List.length hs
  simp only [List.length_append] at hlen
  have h1 : 1 ≤ p.1.length := by
    cases hp : p.1 with
    | nil => exact absurd hp hne
    | cons a as => simp [hp]
  omega

theorem insF_fuel_irrel :
    ∀ (f₁ f₂ : Nat) (s : List Char), s.length ≤ f₁ → s.length ≤ f₂ →
      insF f₁ s = insF f₂ s := by
  intro f₁
  induction f₁ with
  | zero =>
    intro f₂ s h1 _
    have : s = [] := List.eq_nil_of_length_eq_zero (Nat.le_zero.mp h1)
    subst this
    cases f₂ <;> rfl
  | succ f ih =>
    intro f₂ s h1 h2
    cases s with
    | nil => cases f₂ <;> rfl
    | cons c cs =>
      cases f₂ with
      | zero => exact absurd h2 (by simp)
      | succ f₂' =>
        have hcs : cs.length ≤ f := by
          simp only [List.length_cons] at h1; omega
        have hcs2 : cs.length ≤ f₂' := by
          simp only [List.length_cons] at h2; omega
        simp only [insF]
        cases hm : insMatch (c :: cs) with
        | some p =>
          obtain ⟨g0, rest⟩ := p
          have hlt : rest.length < cs.length + 1 := by
            have := insMatch_rest_lt (s := c :: cs) (p := (g0, rest))
              (by rw [hm])
            simpa using this
          simp only
          rw [ih f₂' rest (by omega) (by omega)]
        | none =>
          simp only
          rw [ih f₂' cs hcs hcs2]

theorem insT_cons_match {c : Char} {s g0 rest : List Char}
    (h : insMatch (c :: s) = some (g0, rest)) :
    insertScan (c :: s) = g0 ++ (insertedArg ++ insertScan rest) := by
  have hlt : rest.length < s.length + 1 := by
    have := insMatch_rest_lt (s := c :: s) (p := (g0, rest)) (by rw [h])
    simpa using this
  show insF (c :: s).length (c :: s) = _
  simp only [List.length_cons, insF, h]
  rw [insF_fuel_irrel s.length rest.length rest (by omega) le_rfl]
  simp [List.append_assoc]
  rfl

theorem insT_cons_miss {c : Char} {s : List Char}
    (h : insMatch (c :: s) = none) :
    insertScan (c :: s) = c :: insertScan s := by
  show insF (c :: s).length (c :: s) = _
  simp only [List.length_cons, insF, h]
  rfl

theorem insF_append_of_none :
    ∀ (n : Nat) (x y : List Char), x.length ≤ n →
      (∀ k, k < x.length → insMatch (x.drop k ++ y) = none) →
      insertScan (x ++ y) = x ++ insertScan y := by
  intro n
  induction n with
  | zero =>
    intro x y hx _
    have : x = [] := List.eq_nil_of_length_eq_zero (Nat.le_zero.mp hx)
    subst this
    rfl
  | succ n ih =>
    intro x y hx hnone
    cases x with
    | nil => rfl
    | cons c x' =>
      have h0 : insMatch (c :: (x' ++ y)) = none := by
        have := hnone 0 (by simp)
        simpa using this
      have hrec := ih x' y (by simp only [List.length_cons] at hx; omega)
        (fun k hk => by
          simpa using hnone (k + 1) (by simp only [List.length_cons]; omega))
      rw [List.cons_append, insT_cons_miss h0, hrec]
      rfl

theorem insF_id_of_none :
    ∀ (n : Nat) (t : List Char), t.length ≤ n →
      (∀ k, k < t.length → insMatch (t.drop k) = none) →
      insertScan t = t := by
  intro n
  induction n with
  | zero =>
    intro t ht _
    have : t = [] := List.eq_nil_of_length_eq_zero (Nat.le_zero.mp ht)
    subst this
    rfl
  | succ n ih =>
    intro t ht hnone
    cases t with
    | nil => rfl
    | cons c t' =>
      have h0 : insMatch (c :: t') = none := by simpa using hnone 0 (by simp)
      rw [insT_cons_miss h0]
      rw [ih t' (by simp only [List.length_cons] at ht; omega) ?_]
      intro k hk
      simpa using hnone (k + 1) (by simp only [List.length_cons]; omega)

theorem repl_append_of_none {a b : List Char} :
    ∀ (n : Nat) (x y : List Char), x.length ≤ n →
      (∀ k, k < x.length → pfx a (x.drop k ++ y) = false) →
      replaceAll a b (x ++ y) = x ++ replaceAll a b y := by
  intro n
  induction n with
  | zero =>
    intro x y hx _
    have : x = [] := List.eq_nil_of_length_eq_zero (Nat.le_zero.mp hx)
    subst this
    rfl
  | succ n ih =>
    intro x y hx hnone
    cases x with
    | nil => rfl
    | cons c x' =>
      have h0 : pfx a (c :: (x' ++ y)) = false := by
        have := hnone 0 (by simp)
        simpa using this
      have hrec := ih x' y (by simp only [List.length_cons] at hx; omega)
        (fun k hk => by
          simpa using hnone (k + 1) (by simp only [List.length_cons]; omega))
      rw [List.cons_append, replaceAll_cons_miss h0, hrec]
      rfl

theorem pfxNone_append {a x1 x2 y : List Char}
    (h1 : ∀ k, k < x1.length → pfx a (x1.drop k ++ (x2 ++ y)) = false)
    (h2 : ∀ k, k < x2.length → pfx a (x2.drop k ++ y) = false) :
    ∀ k, k < (x1 ++ x2).length → pfx a ((x1 ++ x2).drop k ++ y) = false := by
  intro k hk
  by_cases hlt : k < x1.length
  · rw [List.drop_append_of_le_length (le_of_lt hlt), List.append_assoc]
    exact h1 k hlt
  · push_neg at hlt
    have hk2 : k - x1.length < x2.length := by
      simp only [List.length_append] at hk
      omega
    have hke : k = x1.length + (k - x1.length) := by omega
    rw [hke, List.drop_append]
    exact h2 _ hk2


theorem mocks_word : ∀ m ∈ mocksL, m.all isWordChar = true := by decide

theorem mocks_ne_nil : ∀ m ∈ mocksL, m ≠ [] := by decide

theorem mocks_no_expect : ∀ m ∈ mocksL, occurs "expect".data m = false := by
  decide

theorem mocksPF : ∀ name ∈ mocksL, ∀ m1 ∈ mocksL, m1 ≠ name →
    pfx (m1.take name.length) name = false := by decide

theorem word_not_space {c : Char} (h : isWordChar c = true) :
    pySpace c = false := by
  by_contra hc
  rw [Bool.not_eq_false] at hc
  simp only [pySpace, Bool.or_eq_true, decide_eq_true_eq] at hc
  rcases hc with ((((h1 | h1) | h1) | h1) | h1) | h1 <;>
    (subst h1; exact absurd h (by decide))

theorem occurs_of_pfx {a s : List Char} (h : pfx a s = true) (ha : a ≠ []) :
    occurs a s = true := by
  cases s with
  | nil =>
    cases a with
    | nil => exact absurd rfl ha
    | cons c as => simp [pfx] at h
  | cons c t =>
    simp only [occurs, Bool.or_eq_true]
    exact Or.inl h

theorem occurs_of_drop_pfx {a s : List Char} {k : Nat}
    (h : pfx a (s.drop k) = true) (ha : a ≠ []) : occurs a s = true := by
  induction s generalizing k with
  | nil =>
    rw [List.drop_nil] at h
    cases a with
    | nil => exact absurd rfl ha
    | cons c as => simp [pfx] at h
  | cons c t ih =>
    cases k with
    | zero => exact occurs_of_pfx h ha
    | succ k' =>
      rw [List.drop_succ_cons] at h
      simp only [occurs, Bool.or_eq_true]
      exact Or.inr (ih h)

theorem occurs_exists_drop {a s : List Char} (h : occurs a s = true)
    (ha : a ≠ []) : ∃ j, pfx a (s.drop j) = true := by
  induction s with
  | nil =>
    simp only [occurs, List.isEmpty_iff] at h
    exact absurd h ha
  | cons c t ih =>
    simp only [occurs, Bool.or_eq_true] at h
    rcases h with h | h
    · exact ⟨0, h⟩
    · obtain ⟨j, hj⟩ := ih h
      exact ⟨j + 1, by simpa using hj⟩

theorem pfx_drop_mono {x t : List Char} (h : pfx x t = true) :
    ∀ j, pfx (x.drop j) (t.drop j) = true := by
  induction x generalizing t with
  | nil => intro j; simp [pfx]
  | cons c x' ih =>
    intro j
    cases t with
    | nil => simp [pfx] at h
    | cons d t' =>
      obtain ⟨he, hp⟩ := pfx_cons_elim h
      cases j with
      | zero => exact h
      | succ j' =>
        simp only [List.drop_succ_cons]
        exact ih hp j'

theorem occurs_mono_pfx {a x t : List Char} (hxt : pfx x t = true)
    (h : occurs a x = true) (ha : a ≠ []) : occurs a t = true := by
  obtain ⟨j, hj⟩ := occurs_exists_drop h ha
  exact occurs_of_drop_pfx (pfx_trans hj (pfx_drop_mono hxt j)) ha

theorem occurs_false_needle {sub N t : List Char} (hsn : pfx sub N = true)
    (hs : sub ≠ []) (h : occurs sub t = false) : occurs N t = false := by
  by_contra hc
  rw [Bool.not_eq_false] at hc
  have hNe : N ≠ [] := by
    intro hnil
    subst hnil
    cases sub with
    | nil => exact absurd rfl hs
    | cons c cs => simp [pfx] at hsn
  obtain ⟨j, hj⟩ := occurs_exists_drop hc hNe
  have := occurs_of_drop_pfx (pfx_trans hsn hj) hs
  rw [h] at this
  exact absurd this (by simp)

theorem occurs_append_none {a x y : List Char}
    (hx : ∀ k, k < x.length → pfx a (x.drop k ++ y) = false)
    (hy : occurs a y = false) (ha : a ≠ []) : occurs a (x ++ y) = false := by
  induction x with
  | nil => simpa using hy
  | cons c x' ih =>
    simp only [List.cons_append, occurs, Bool.or_eq_false_iff]
    constructor
    · have := hx 0 (by simp)
      simpa using this
    · exact ih (fun k hk => by
        simpa using hx (k + 1) (by simp only [List.length_cons]; omega))

theorem pfx_expect_head {c : Char} {t : List Char} (hc : c ≠ 'e') :
    pfx "expect".data (c :: t) = false := by
  show pfx ('e' :: "xpect".data) (c :: t) = false
  simp only [pfx, Bool.and_eq_false_iff]
  exact Or.inl (decide_eq_false (Ne.symm hc))

theorem pfx_expect_head2 {c2 : Char} {t : List Char} (hc : c2 ≠ 'x') :
    pfx "expect".data ('e' :: c2 :: t) = false := by
  show pfx ('e' :: 'x' :: "pect".data) ('e' :: c2 :: t) = false
  simp only [pfx, Bool.and_eq_false_iff]
  exact Or.inr (Or.inl (decide_eq_false (Ne.symm hc)))

theorem insMatch_none_of_not_expect {t : List Char}
    (h : pfx insHeadE t = false) : insMatch t = none := by
  unfold insMatch
  rw [stripLit_none_of_not_pfx h]

theorem insMatch_dot_after (z : List Char) :
    insMatch (insHeadE ++ ('.' :: z)) = none := by
  unfold insMatch
  rw [stripLit_self_append]
  simp only
  rw [show List.dropWhile pySpace ('.' :: z) = '.' :: z from by
    simp [List.dropWhile_cons, show pySpace '.' = false from by decide]]
  rw [show stripLit ['('] ('.' :: z) = none by simp [stripLit]]

theorem firstLitPfx_of_mem {name rest : List Char} :
    ∀ ms : List (List Char), name ∈ ms →
      (∀ m1 ∈ ms, m1 ≠ name → pfx (m1.take name.length) name = false) →
      firstLitPfx ms (name ++ rest) = some (name, rest) := by
  intro ms
  induction ms with
  | nil => intro hmem; exact absurd hmem (by simp)
  | cons m ms' ih =>
    intro hmem hpf
    by_cases hm : m = name
    · subst hm
      simp only [firstLitPfx, stripLit_self_append]
    · have hmem' : name ∈ ms' := by
        rcases List.mem_cons.mp hmem with h | h
        · exact absurd h.symm hm
        · exact h
      have hnone : stripLit m (name ++ rest) = none := by
        apply stripLit_none_of_not_pfx
        by_contra hc
        rw [Bool.not_eq_false] at hc
        have := pfx_take_of_append hc
        rw [hpf m (by simp) hm] at this
        exact absurd this (by simp)
      simp only [firstLitPfx, hnone]
      exact ih hmem' (fun m1 hm1 hne => hpf m1 (by simp [hm1]) hne)


theorem insMatch_at_site {name w : List Char} (z : List Char)
    (hmem : name ∈ mocksL) (hww : w.all isWordChar = true) (hwne : w ≠ []) :
    insMatch (siteOf name w ++ z) = some (siteOf name w, z) := by
  have hsh : siteOf name w ++ z =
      insHeadE ++ ('(' :: (name ++ ('.' :: (w ++ (remMid ++ z))))) := by
    simp only [siteOf, show expectParen = insHeadE ++ ['('] from by decide]
    simp [List.append_assoc]
  rw [hsh]
  unfold insMatch
  rw [stripLit_self_append]
  simp only
  rw [show List.takeWhile pySpace
      ('(' :: (name ++ ('.' :: (w ++ (remMid ++ z))))) = [] from by
    simp [List.takeWhile_cons, show pySpace '(' = false from by decide]]
  rw [show List.dropWhile pySpace
      ('(' :: (name ++ ('.' :: (w ++ (remMid ++ z))))) =
      '(' :: (name ++ ('.' :: (w ++ (remMid ++ z)))) from by
    simp [List.dropWhile_cons, show pySpace '(' = false from by decide]]
  rw [show stripLit ['('] ('(' :: (name ++ ('.' :: (w ++ (remMid ++ z))))) =
      some (name ++ ('.' :: (w ++ (remMid ++ z)))) from by simp [stripLit]]
  simp only
  have hnw := mocks_word name hmem
  have hnn := mocks_ne_nil name hmem
  have hheadw : ∀ q : List Char, List.takeWhile pySpace (name ++ q) = [] ∧
      List.dropWhile pySpace (name ++ q) = name ++ q := by
    intro q
    cases hname : name with
    | nil => exact absurd hname hnn
    | cons nh nt =>
      have hh : isWordChar nh = true := by
        rw [hname] at hnw
        simp only [List.all_cons, Bool.and_eq_true] at hnw
        exact hnw.1
      constructor
      · simp [List.cons_append, List.takeWhile_cons, word_not_space hh]
      · simp [List.cons_append, List.dropWhile_cons, word_not_space hh]
  rw [(hheadw _).1, (hheadw _).2]
  rw [firstLitPfx_of_mem mocksL hmem
    (fun m1 hm1 hne => mocksPF name hmem m1 hm1 hne)]
  simp only
  rw [show stripLit ['.'] ('.' :: (w ++ (remMid ++ z))) =
      some (w ++ (remMid ++ z)) from by simp [stripLit]]
  simp only
  rw [takeWhile_append_all _ hww, dropWhile_append_all _ hww]
  rw [show List.takeWhile isWordChar (remMid ++ z) = [] from by
    rw [show remMid = ')' :: (insTailLit ++ ['(']) from by decide]
    simp [List.cons_append, List.takeWhile_cons,
      show isWordChar ')' = false from by decide]]
  rw [show List.dropWhile isWordChar (remMid ++ z) = remMid ++ z from by
    rw [show remMid = ')' :: (insTailLit ++ ['(']) from by decide]
    simp [List.cons_append, List.dropWhile_cons,
      show isWordChar ')' = false from by decide]]
  rw [List.append_nil]
  have hwe : w.isEmpty = false := by
    cases w with
    | nil => exact absurd rfl hwne
    | cons a as => rfl
  rw [hwe]
  simp only [Bool.false_eq_true, if_false]
  rw [show List.takeWhile pySpace (remMid ++ z) = [] from by
    rw [show remMid = ')' :: (insTailLit ++ ['(']) from by decide]
    simp [List.cons_append, List.takeWhile_cons,
      show pySpace ')' = false from by decide]]
  rw [show List.dropWhile pySpace (remMid ++ z) = remMid ++ z from by
    rw [show remMid = ')' :: (insTailLit ++ ['(']) from by decide]
    simp [List.cons_append, List.dropWhile_cons,
      show pySpace ')' = false from by decide]]
  rw [show remMid ++ z = ')' :: (insTailLit ++ ('(' :: z)) from by
    rw [show remMid = ')' :: (insTailLit ++ ['(']) from by decide]
    simp [List.append_assoc]]
  rw [show stripLit [')'] (')' :: (insTailLit ++ ('(' :: z))) =
      some (insTailLit ++ ('(' :: z)) from by simp [stripLit]]
  simp only
  rw [stripLit_self_append]
  simp only
  rw [show List.takeWhile pySpace ('(' :: z) = [] from by
    simp [List.takeWhile_cons, show pySpace '(' = false from by decide]]
  rw [show List.dropWhile pySpace ('(' :: z) = '(' :: z from by
    simp [List.dropWhile_cons, show pySpace '(' = false from by decide]]
  rw [show stripLit ['('] ('(' :: z) = some z from by simp [stripLit]]
  simp only [List.append_nil, List.nil_append, Option.some.injEq,
    Prod.mk.injEq]
  constructor
  · simp [siteOf, show expectParen = insHeadE ++ ['('] from by decide,
      show remMid = ')' :: (insTailLit ++ ['(']) from by decide,
      List.append_assoc]
  · trivial


theorem noExpect_pre {pre : List Char} (hpre : occurs "expect".data pre = false)
    (z : List Char) :
    ∀ k, k < pre.length →
      pfx "expect".data (pre.drop k ++ (expectParen ++ z)) = false := by
  intro k hk
  by_contra hc
  rw [Bool.not_eq_false] at hc
  rcases pfx_append_cases hc with h1 | ⟨h1, h2⟩
  · have h3 := occurs_of_drop_pfx h1 (by decide)
    rw [hpre] at h3
    exact absurd h3 (by simp)
  · have hj1 : 1 ≤ (pre.drop k).length := by
      rw [List.length_drop]
      omega
    have hj6 : (pre.drop k).length ≤ 6 := by
      have := pfx_length_le h1
      have h6 : ("expect".data).length = 6 := by decide
      omega
    by_cases hj : (pre.drop k).length = 6
    · have he : pre.drop k = "expect".data := by
        rw [pfx_eq_take h1, hj]
        rw [show (6 : Nat) = ("expect".data).length from by decide,
          List.take_length]
      have h4 : pfx "expect".data (pre.drop k) = true := by
        rw [he]
        exact pfx_refl _
      have h5 := occurs_of_drop_pfx h4 (by decide)
      rw [hpre] at h5
      exact absurd h5 (by simp)
    · have hjlt : (pre.drop k).length < 6 := lt_of_le_of_ne hj6 hj
      have h3 := pfx_append_split h2 (by
        rw [List.length_drop]
        have h6 : ("expect".data).length = 6 := by decide
        have h7 : expectParen.length = 7 := by decide
        omega)
      have hD : ∀ i, i < 6 → 1 ≤ i →
          pfx ("expect".data.drop i) expectParen = false := by decide
      rw [hD (pre.drop k).length hjlt hj1] at h3
      exact absurd h3 (by simp)

theorem noExpect_epTail (z : List Char) :
    ∀ k, k < expectParen.length → 1 ≤ k →
      pfx "expect".data (expectParen.drop k ++ z) = false := by
  intro k hk h1
  have hk7 : k < 7 := by
    have h7 : expectParen.length = 7 := by decide
    omega
  interval_cases k
  · rw [show List.drop 1 expectParen = 'x' :: "pect(".data from by decide,
      List.cons_append]
    exact pfx_expect_head (by decide)
  · rw [show List.drop 2 expectParen = 'p' :: "ect(".data from by decide,
      List.cons_append]
    exact pfx_expect_head (by decide)
  · rw [show List.drop 3 expectParen = 'e' :: 'c' :: "t(".data from by decide]
    simp only [List.cons_append]
    exact pfx_expect_head2 (by decide)
  · rw [show List.drop 4 expectParen = 'c' :: "t(".data from by decide,
      List.cons_append]
    exact pfx_expect_head (by decide)
  · rw [show List.drop 5 expectParen = 't' :: "(".data from by decide,
      List.cons_append]
    exact pfx_expect_head (by decide)
  · rw [show List.drop 6 expectParen = '(' :: [] from by decide,
      List.cons_append]
    exact pfx_expect_head (by decide)

theorem noExpect_word {X : List Char} {c : Char}
    (hXw : X.all isWordChar = true)
    (hXocc : occurs "expect".data X = false)
    (hc : ∀ i, i < 6 → (("expect".data.drop i).head? == some c) = false)
    (z : List Char) :
    ∀ i, i < X.length → pfx "expect".data (X.drop i ++ (c :: z)) = false := by
  intro i hi
  by_contra hcon
  rw [Bool.not_eq_false] at hcon
  rcases pfx_append_cases hcon with h1 | ⟨h1, h2⟩
  · have h3 := occurs_of_drop_pfx h1 (by decide)
    rw [hXocc] at h3
    exact absurd h3 (by simp)
  · have hj6 : (X.drop i).length ≤ 6 := by
      have := pfx_length_le h1
      have h6 : ("expect".data).length = 6 := by decide
      omega
    by_cases hj : (X.drop i).length = 6
    · have he : X.drop i = "expect".data := by
        rw [pfx_eq_take h1, hj]
        rw [show (6 : Nat) = ("expect".data).length from by decide,
          List.take_length]
      have h4 : pfx "expect".data (X.drop i) = true := by
        rw [he]
        exact pfx_refl _
      have h5 := occurs_of_drop_pfx h4 (by decide)
      rw [hXocc] at h5
      exact absurd h5 (by simp)
    · have hjlt : (X.drop i).length < 6 := lt_of_le_of_ne hj6 hj
      cases hd : "expect".data.drop (X.drop i).length with
      | nil =>
        have h8 : ("expect".data).length ≤ (X.drop i).length :=
          List.drop_eq_nil_iff.mp hd
        have h6 : ("expect".data).length = 6 := by decide
        omega
      | cons d ds =>
        rw [hd] at h2
        obtain ⟨hde, -⟩ := pfx_cons_elim h2
        have h5 := hc (X.drop i).length hjlt
        rw [hd] at h5
        simp only [List.head?_cons] at h5
        rw [hde] at h5
        simp at h5

theorem noExpect_remMid {z : List Char} (hz : pfx anyStringArg z = true) :
    ∀ j, j < remMid.length → pfx "expect".data (remMid.drop j ++ z) = false := by
  intro j hj
  by_contra hc
  rw [Bool.not_eq_false] at hc
  have hzd := pfx_decomp hz
  rw [hzd] at hc
  rw [show remMid.drop j ++ (anyStringArg ++
      List.drop anyStringArg.length z) =
      (remMid.drop j ++ anyStringArg) ++ List.drop anyStringArg.length z from
    by simp [List.append_assoc]] at hc
  have h2 := pfx_append_split hc (by
    rw [List.length_append, List.length_drop]
    have h6 : ("expect".data).length = 6 := by decide
    have h18 : anyStringArg.length = 18 := by decide
    omega)
  have hD : ∀ i, i < remMid.length →
      pfx "expect".data (remMid.drop i ++ anyStringArg) = false := by decide
  rw [hD j hj] at h2
  exact absurd h2 (by simp)

theorem noExpect_ACommaInner (z : List Char) :
    ∀ j, j < anyStrComma.length → 1 ≤ j →
      pfx "expect".data (anyStrComma.drop j ++ z) = false := by
  intro j hj h1
  by_contra hc
  rw [Bool.not_eq_false] at hc
  rcases pfx_append_cases hc with h2 | ⟨h2, h3⟩
  · have hD : ∀ i, i < anyStrComma.length → 1 ≤ i →
        pfx "expect".data (anyStrComma.drop i) = false := by decide
    rw [hD j hj h1] at h2
    exact absurd h2 (by simp)
  · have hD2 : ∀ i, i < anyStrComma.length → 1 ≤ i →
        pfx (anyStrComma.drop i) "expect".data = false := by decide
    rw [hD2 j hj h1] at h2
    exact absurd h2 (by simp)

theorem noExpect_tail {tail : List Char}
    (htail : occurs "expect".data tail = false) :
    ∀ k, k < tail.length → pfx "expect".data (tail.drop k) = false := by
  intro k hk
  by_contra hc
  rw [Bool.not_eq_false] at hc
  have h3 := occurs_of_drop_pfx hc (by decide)
  rw [htail] at h3
  exact absurd h3 (by simp)

theorem noExpect_site1 {name w y : List Char} (hmem : name ∈ mocksL)
    (hww : w.all isWordChar = true)
    (hw2 : occurs "expect".data w = false)
    (hy : pfx anyStringArg y = true) :
    ∀ k, k < (siteOf name w).length → 1 ≤ k →
      pfx "expect".data ((siteOf name w).drop k ++ y) = false := by
  have eMid : ∀ k, k < remMid.length →
      pfx "expect".data (remMid.drop k ++ y) = false := noExpect_remMid hy
  have eW : ∀ k, k < (w ++ remMid).length →
      pfx "expect".data ((w ++ remMid).drop k ++ y) = false := by
    refine pfxNone_append ?_ eMid
    intro k hk
    rw [show remMid ++ y = ')' :: ((insTailLit ++ ['(']) ++ y) from by
      rw [show remMid = ')' :: (insTailLit ++ ['(']) from by decide]
      rfl]
    exact noExpect_word hww hw2 (by decide) _ k hk
  have eDot : ∀ k, k < ('.' :: (w ++ remMid)).length →
      pfx "expect".data (('.' :: (w ++ remMid)).drop k ++ y) = false := by
    intro k hk
    cases k with
    | zero =>
      simp only [List.drop_zero, List.cons_append]
      exact pfx_expect_head (by decide)
    | succ k' =>
      simp only [List.drop_succ_cons]
      refine eW k' ?_
      simp only [List.length_cons] at hk
      omega
  have eInner : ∀ k, k < (name ++ ('.' :: (w ++ remMid))).length →
      pfx "expect".data ((name ++ ('.' :: (w ++ remMid))).drop k ++ y) =
        false := by
    refine pfxNone_append ?_ eDot
    intro k hk
    rw [show ('.' :: (w ++ remMid)) ++ y = '.' :: ((w ++ remMid) ++ y) from
      rfl]
    exact noExpect_word (mocks_word name hmem) (mocks_no_expect name hmem)
      (by decide) _ k hk
  intro k hk h1
  have hsplit : siteOf name w = expectParen ++ (name ++ ('.' :: (w ++ remMid))) :=
    rfl
  rw [hsplit]
  by_cases hlt : k < expectParen.length
  · rw [List.drop_append_of_le_length (le_of_lt hlt), List.append_assoc]
    exact noExpect_epTail _ k hlt h1
  · push_neg at hlt
    have hke : k = expectParen.length + (k - expectParen.length) := by omega
    rw [hke, List.drop_append]
    refine eInner _ ?_
    rw [hsplit] at hk
    simp only [List.length_append, List.length_cons] at hk ⊢
    omega

theorem noNeedle_preSite {N pre name w y : List Char}
    (hN1 : pfx "expect".data N = true)
    (hN2 : pfx (N.take expectParen.length) expectParen = false)
    (hpre : occurs "expect".data pre = false) (hmem : name ∈ mocksL)
    (hww : w.all isWordChar = true)
    (hw2 : occurs "expect".data w = false)
    (hy : pfx anyStringArg y = true) :
    ∀ k, k < (pre ++ siteOf name w).length →
      pfx N ((pre ++ siteOf name w).drop k ++ y) = false := by
  intro k hk
  by_contra hc
  rw [Bool.not_eq_false] at hc
  have hcE : pfx "expect".data ((pre ++ siteOf name w).drop k ++ y) = true :=
    pfx_trans hN1 hc
  by_cases hlt : k < pre.length
  · rw [List.drop_append_of_le_length (le_of_lt hlt), List.append_assoc] at hcE
    have := noExpect_pre hpre ((name ++ ('.' :: (w ++ remMid))) ++ y) k hlt
    rw [show expectParen ++ ((name ++ ('.' :: (w ++ remMid))) ++ y) =
        siteOf name w ++ y from by simp [siteOf, List.append_assoc]] at this
    rw [this] at hcE
    exact absurd hcE (by simp)
  · push_neg at hlt
    have hke : k = pre.length + (k - pre.length) := by omega
    rw [hke, List.drop_append] at hc hcE
    by_cases h0 : k - pre.length = 0
    · rw [h0, List.drop_zero] at hc
      rw [show siteOf name w ++ y =
          expectParen ++ ((name ++ ('.' :: (w ++ remMid))) ++ y) from by
        simp [siteOf, List.append_assoc]] at hc
      have h2 := pfx_take_of_append hc
      rw [hN2] at h2
      exact absurd h2 (by simp)
    · have h1le : 1 ≤ k - pre.length := by omega
      have hklt : k - pre.length < (siteOf name w).length := by
        simp only [List.length_append] at hk
        omega
      rw [noExpect_site1 hmem hww hw2 hy _ hklt h1le] at hcE
      exact absurd hcE (by simp)


theorem insT_match_any {s g0 rest : List Char}
    (h : insMatch s = some (g0, rest)) (hs : s ≠ []) :
    insertScan s = g0 ++ (insertedArg ++ insertScan rest) := by
  cases s with
  | nil => exact absurd rfl hs
  | cons c s' => exact insT_cons_match h

theorem pfx_needle_head {N : List Char} (hN : pfx "expect".data N = true)
    {c : Char} {t : List Char} (hc : c ≠ 'e') : pfx N (c :: t) = false := by
  by_contra hcon
  rw [Bool.not_eq_false] at hcon
  have h2 := pfx_trans hN hcon
  rw [pfx_expect_head hc] at h2
  exact absurd h2 (by simp)

theorem insertScan_c3 {pre name w tail : List Char}
    (hpre : occurs "expect".data pre = false) (hmem : name ∈ mocksL)
    (hww : w.all isWordChar = true) (hwne : w ≠ [])
    (htail : occurs "expect".data tail = false) :
    insertScan (pre ++ (occOf name w ++ tail)) =
      pre ++ (siteOf name w ++ (insertedArg ++ (anyStrComma ++ (' ' :: tail)))) := by
  have hpreNone : ∀ k, k < pre.length →
      insMatch (pre.drop k ++ (occOf name w ++ tail)) = none := by
    intro k hk
    apply insMatch_none_of_not_expect
    rw [occY_shape]
    exact noExpect_pre hpre _ k hk
  rw [insF_append_of_none pre.length pre _ le_rfl hpreNone]
  have hocc : occOf name w ++ tail =
      siteOf name w ++ (anyStrComma ++ (' ' :: tail)) := by
    simp [occOf, siteOf, remTailLit, List.append_assoc]
  rw [hocc]
  have hm := insMatch_at_site (anyStrComma ++ (' ' :: tail)) hmem hww hwne
  have hne : siteOf name w ++ (anyStrComma ++ (' ' :: tail)) ≠ [] := by
    intro hcontra
    have := congrArg List.length hcontra
    simp only [List.length_append, List.length_cons, List.length_nil] at this
    omega
  rw [insT_match_any hm hne]
  have hACnone : ∀ k, k < anyStrComma.length →
      insMatch (anyStrComma.drop k ++ (' ' :: tail)) = none := by
    intro k hk
    by_cases h0 : k = 0
    · subst h0
      rw [List.drop_zero]
      rw [show anyStrComma ++ (' ' :: tail) =
          insHeadE ++ ('.' :: ("any(String),".data ++ (' ' :: tail))) from by
        rw [show anyStrComma = insHeadE ++ ('.' :: "any(String),".data) from
          by decide]
        simp [List.append_assoc]]
      exact insMatch_dot_after _
    · exact insMatch_none_of_not_expect
        (noExpect_ACommaInner _ k hk (by omega))
  rw [insF_append_of_none anyStrComma.length anyStrComma _ le_rfl hACnone]
  have hsp : insMatch (' ' :: tail) = none :=
    insMatch_none_of_not_expect (pfx_expect_head (by decide))
  rw [insT_cons_miss hsp]
  have htailNone : ∀ k, k < tail.length → insMatch (tail.drop k) = none :=
    fun k hk => insMatch_none_of_not_expect (noExpect_tail htail k hk)
  rw [insF_id_of_none tail.length tail le_rfl htailNone]

theorem normalize1_c3 {pre name w tail : List Char}
    (hpre : occurs "expect".data pre = false) (hmem : name ∈ mocksL)
    (hww : w.all isWordChar = true)
    (hw2 : occurs "expect".data w = false)
    (htail : occurs "expect".data tail = false) :
    replaceAll needleDup anyStringArg
      (pre ++ (siteOf name w ++
        (insertedArg ++ (anyStrComma ++ (' ' :: tail))))) =
      pre ++ (occOf name w ++ tail) := by
  have hshape : pre ++ (siteOf name w ++
      (insertedArg ++ (anyStrComma ++ (' ' :: tail)))) =
      (pre ++ siteOf name w) ++ (needleDup ++ ([',', ' '] ++ tail)) := by
    rw [show insertedArg = anyStringArg ++ [',', ' '] from by decide,
      show anyStrComma = anyStringArg ++ [','] from by decide,
      show needleDup = anyStringArg ++ ([',', ' '] ++ anyStringArg) from
        by decide]
    simp [List.append_assoc]
  rw [hshape]
  have hyA : pfx anyStringArg (needleDup ++ ([',', ' '] ++ tail)) = true :=
    pfx_append_weaken _ (by decide)
  rw [repl_append_of_none (pre ++ siteOf name w).length _ _ le_rfl
    (noNeedle_preSite (by decide) (by decide) hpre hmem hww hw2 hyA)]
  rw [replaceAll_append_self (by decide)]
  have hnone2 : occurs needleDup ([',', ' '] ++ tail) = false := by
    refine occurs_append_none ?_ ?_ (by decide)
    · intro k hk
      have hk2 : k < 2 := by simpa using hk
      interval_cases k
      · simp only [List.drop_zero, List.cons_append, List.nil_append]
        exact pfx_needle_head (by decide) (by decide)
      · simp only [List.drop_succ_cons, List.drop_zero, List.cons_append,
          List.nil_append]
        exact pfx_needle_head (by decide) (by decide)
    · exact occurs_false_needle (by decide) (by decide) htail
  rw [replaceAll_not_occurs hnone2]
  rw [show anyStringArg ++ ([',', ' '] ++ tail) =
      anyStrComma ++ (' ' :: tail) from by
    rw [show anyStrComma = anyStringArg ++ [','] from by decide]
    simp [List.append_assoc]]
  simp [occOf, siteOf, remTailLit, List.append_assoc]

theorem normalize2_c3 {pre name w tail : List Char}
    (hpre : occurs "expect".data pre = false) (hmem : name ∈ mocksL)
    (hww : w.all isWordChar = true)
    (hw2 : occurs "expect".data w = false)
    (htail : occurs "expect".data tail = false)
    (htail2 : tail.head? ≠ some ')') :
    replaceAll needleDangle needleDangleRepl (pre ++ (occOf name w ++ tail)) =
      pre ++ (occOf name w ++ tail) := by
  have hshape : pre ++ (occOf name w ++ tail) =
      (pre ++ siteOf name w) ++ (anyStrComma ++ (' ' :: tail)) := by
    simp [occOf, siteOf, remTailLit, List.append_assoc]
  rw [hshape]
  have hyA : pfx anyStringArg (anyStrComma ++ (' ' :: tail)) = true :=
    pfx_append_weaken _ (by decide)
  rw [repl_append_of_none (pre ++ siteOf name w).length _ _ le_rfl
    (noNeedle_preSite (by decide) (by decide) hpre hmem hww hw2 hyA)]
  have hk0 : pfx needleDangle (anyStrComma ++ (' ' :: tail)) = false := by
    rw [show needleDangle = anyStrComma ++ (' ' :: [')']) from by decide]
    rw [pfx_append_cancel]
    simp only [pfx, Bool.and_eq_true, decide_eq_true_eq]
    cases tail with
    | nil => simp [pfx]
    | cons t0 ts =>
      have ht0 : t0 ≠ ')' := by
        intro he
        apply htail2
        rw [he]
        rfl
      simp [pfx, Ne.symm ht0]
  have hnone3 : occurs needleDangle (anyStrComma ++ (' ' :: tail)) = false := by
    refine occurs_append_none ?_ ?_ (by decide)
    · intro k hk
      by_cases h0 : k = 0
      · subst h0
        rw [List.drop_zero]
        exact hk0
      · by_contra hc
        rw [Bool.not_eq_false] at hc
        have h2 := pfx_trans (show pfx "expect".data needleDangle = true from
          by decide) hc
        rw [noExpect_ACommaInner _ k hk (by omega)] at h2
        exact absurd h2 (by simp)
    · simp only [occurs, Bool.or_eq_false_iff]
      constructor
      · exact pfx_needle_head (by decide) (by decide)
      · exact occurs_false_needle (by decide) (by decide) htail
  rw [replaceAll_not_occurs hnone3]

theorem occursDup_c3 {pre name w tail : List Char}
    (hpre : occurs "expect".data pre = false) (hmem : name ∈ mocksL)
    (hww : w.all isWordChar = true)
    (hw2 : occurs "expect".data w = false)
    (htail : occurs "expect".data tail = false) :
    occurs needleDup (pre ++ (occOf name w ++ tail)) = false := by
  have hshape : pre ++ (occOf name w ++ tail) =
      (pre ++ siteOf name w) ++ (anyStrComma ++ (' ' :: tail)) := by
    simp [occOf, siteOf, remTailLit, List.append_assoc]
  rw [hshape]
  have hyA : pfx anyStringArg (anyStrComma ++ (' ' :: tail)) = true :=
    pfx_append_weaken _ (by decide)
  refine occurs_append_none
    (noNeedle_preSite (by decide) (by decide) hpre hmem hww hw2 hyA) ?_
    (by decide)
  refine occurs_append_none ?_ ?_ (by decide)
  · intro k hk
    by_cases h0 : k = 0
    · subst h0
      rw [List.drop_zero]
      rw [show needleDup = anyStrComma ++ (' ' :: anyStringArg) from by decide]
      rw [pfx_append_cancel]
      by_contra hc
      rw [Bool.not_eq_false] at hc
      have hc2 : pfx anyStringArg tail = true := by simpa [pfx] using hc
      have h2 := pfx_trans (show pfx "expect".data anyStringArg = true from
        by decide) hc2
      have h3 := occurs_of_pfx h2 (by decide)
      rw [htail] at h3
      exact absurd h3 (by simp)
    · by_contra hc
      rw [Bool.not_eq_false] at hc
      have h2 := pfx_trans (show pfx "expect".data needleDup = true from
        by decide) hc
      rw [noExpect_ACommaInner _ k hk (by omega)] at h2
      exact absurd h2 (by simp)
  · simp only [occurs, Bool.or_eq_false_iff]
    constructor
    · exact pfx_needle_head (by decide) (by decide)
    · exact occurs_false_needle (by decide) (by decide) htail

theorem occursDangle_c3 {pre name w tail : List Char}
    (hpre : occurs "expect".data pre = false) (hmem : name ∈ mocksL)
    (hww : w.all isWordChar = true)
    (hw2 : occurs "expect".data w = false)
    (htail : occurs "expect".data tail = false)
    (htail2 : tail.head? ≠ some ')') :
    occurs needleDangle (pre ++ (occOf name w ++ tail)) = false := by
  have hshape : pre ++ (occOf name w ++ tail) =
      (pre ++ siteOf name w) ++ (anyStrComma ++ (' ' :: tail)) := by
    simp [occOf, siteOf, remTailLit, List.append_assoc]
  rw [hshape]
  have hyA : pfx anyStringArg (anyStrComma ++ (' ' :: tail)) = true :=
    pfx_append_weaken _ (by decide)
  refine occurs_append_none
    (noNeedle_preSite (by decide) (by decide) hpre hmem hww hw2 hyA) ?_
    (by decide)
  refine occurs_append_none ?_ ?_ (by decide)
  · intro k hk
    by_cases h0 : k = 0
    · subst h0
      rw [List.drop_zero]
      rw [show needleDangle = anyStrComma ++ (' ' :: [')']) from by decide]
      rw [pfx_append_cancel]
      simp only [pfx, Bool.and_eq_true, decide_eq_true_eq]
      cases tail with
      | nil => simp [pfx]
      | cons t0 ts =>
        have ht0 : t0 ≠ ')' := by
          intro he
          apply htail2
          rw [he]
          rfl
        simp [pfx, Ne.symm ht0]
    · by_contra hc
      rw [Bool.not_eq_false] at hc
      have h2 := pfx_trans (show pfx "expect".data needleDangle = true from
        by decide) hc
      rw [noExpect_ACommaInner _ k hk (by omega)] at h2
      exact absurd h2 (by simp)
  · simp only [occurs, Bool.or_eq_false_iff]
    constructor
    · exact pfx_needle_head (by decide) (by decide)
    · exact occurs_false_needle (by decide) (by decide) htail

theorem noExpect_DReplInner (z : List Char) :
    ∀ j, j < needleDangleRepl.length → 1 ≤ j →
      pfx "expect".data (needleDangleRepl.drop j ++ z) = false := by
  intro j hj h1
  by_contra hc
  rw [Bool.not_eq_false] at hc
  rcases pfx_append_cases hc with h2 | ⟨h2, h3⟩
  · have hD : ∀ i, i < needleDangleRepl.length → 1 ≤ i →
        pfx "expect".data (needleDangleRepl.drop i) = false := by decide
    rw [hD j hj h1] at h2
    exact absurd h2 (by simp)
  · have hD2 : ∀ i, i < needleDangleRepl.length → 1 ≤ i →
        pfx (needleDangleRepl.drop i) "expect".data = false := by decide
    rw [hD2 j hj h1] at h2
    exact absurd h2 (by simp)

theorem noNeedle_dreplRegion {N ts : List Char} (rest : List Char)
    (hNsh : N = anyStringArg ++ (',' :: rest))
    (hN1 : pfx "expect".data N = true)
    (hts : occurs "expect".data ts = false) :
    occurs N (needleDangleRepl ++ ts) = false := by
  refine occurs_append_none ?_ (occurs_false_needle hN1 (by decide) hts) ?_
  · intro k hk
    by_cases h0 : k = 0
    · subst h0
      rw [List.drop_zero, hNsh]
      rw [show needleDangleRepl ++ ts = anyStringArg ++ (')' :: ts) from by
        rw [show needleDangleRepl = anyStringArg ++ [')'] from by decide]
        simp [List.append_assoc]]
      rw [pfx_append_cancel]
      simp [pfx]
    · by_contra hc
      rw [Bool.not_eq_false] at hc
      have h2 := pfx_trans hN1 hc
      rw [noExpect_DReplInner _ k hk (by omega)] at h2
      exact absurd h2 (by simp)
  · rw [hNsh]
    simp

theorem normalize2_paren {pre name w ts : List Char}
    (hpre : occurs "expect".data pre = false) (hmem : name ∈ mocksL)
    (hww : w.all isWordChar = true)
    (hw2 : occurs "expect".data w = false)
    (hts : occurs "expect".data ts = false) :
    replaceAll needleDangle needleDangleRepl
      (pre ++ (occOf name w ++ (')' :: ts))) =
      pre ++ (siteOf name w ++ (needleDangleRepl ++ ts)) := by
  have hshape : pre ++ (occOf name w ++ (')' :: ts)) =
      (pre ++ siteOf name w) ++ (needleDangle ++ ts) := by
    rw [show needleDangle = anyStrComma ++ (' ' :: [')']) from by decide]
    simp [occOf, siteOf, remTailLit, List.append_assoc]
  rw [hshape]
  have hyA : pfx anyStringArg (needleDangle ++ ts) = true :=
    pfx_append_weaken _ (by decide)
  rw [repl_append_of_none (pre ++ siteOf name w).length _ _ le_rfl
    (noNeedle_preSite (by decide) (by decide) hpre hmem hww hw2 hyA)]
  rw [replaceAll_append_self (by decide)]
  rw [replaceAll_not_occurs
    (occurs_false_needle (by decide) (by decide) hts)]
  simp [List.append_assoc]

theorem occursDup_paren {pre name w ts : List Char}
    (hpre : occurs "expect".data pre = false) (hmem : name ∈ mocksL)
    (hww : w.all isWordChar = true)
    (hw2 : occurs "expect".data w = false)
    (hts : occurs "expect".data ts = false) :
    occurs needleDup
      (pre ++ (siteOf name w ++ (needleDangleRepl ++ ts))) = false := by
  rw [show pre ++ (siteOf name w ++ (needleDangleRepl ++ ts)) =
      (pre ++ siteOf name w) ++ (needleDangleRepl ++ ts) from by
    simp [List.append_assoc]]
  have hyA : pfx anyStringArg (needleDangleRepl ++ ts) = true :=
    pfx_append_weaken _ (by decide)
  exact occurs_append_none
    (noNeedle_preSite (by decide) (by decide) hpre hmem hww hw2 hyA)
    (noNeedle_dreplRegion (' ' :: anyStringArg) (by decide) (by decide) hts)
    (by decide)

theorem occursDangle_paren {pre name w ts : List Char}
    (hpre : occurs "expect".data pre = false) (hmem : name ∈ mocksL)
    (hww : w.all isWordChar = true)
    (hw2 : occurs "expect".data w = false)
    (hts : occurs "expect".data ts = false) :
    occurs needleDangle
      (pre ++ (siteOf name w ++ (needleDangleRepl ++ ts))) = false := by
  rw [show pre ++ (siteOf name w ++ (needleDangleRepl ++ ts)) =
      (pre ++ siteOf name w) ++ (needleDangleRepl ++ ts) from by
    simp [List.append_assoc]]
  have hyA : pfx anyStringArg (needleDangleRepl ++ ts) = true :=
    pfx_append_weaken _ (by decide)
  exact occurs_append_none
    (noNeedle_preSite (by decide) (by decide) hpre hmem hww hw2 hyA)
    (noNeedle_dreplRegion [' ', ')'] (by decide) (by decide) hts)
    (by decide)

theorem parenFix {pre name w ts : List Char}
    (hpre : occurs "expect".data pre = false) (hmem : name ∈ mocksL)
    (hww : w.all isWordChar = true) (hwne : w ≠ [])
    (hw2 : occurs "expect".data w = false)
    (hts : occurs "expect".data ts = false) :
    inserterTransform (pre ++ (siteOf name w ++ (needleDangleRepl ++ ts))) =
      pre ++ (siteOf name w ++ (needleDangleRepl ++ ts)) := by
  have hscan : insertScan (pre ++ (siteOf name w ++ (needleDangleRepl ++ ts))) =
      pre ++ (siteOf name w ++ (insertedArg ++ (needleDangleRepl ++ ts))) := by
    have hpreNone : ∀ k, k < pre.length →
        insMatch (pre.drop k ++
          (siteOf name w ++ (needleDangleRepl ++ ts))) = none := by
      intro k hk
      apply insMatch_none_of_not_expect
      rw [show siteOf name w ++ (needleDangleRepl ++ ts) =
          expectParen ++ ((name ++ ('.' :: (w ++ remMid))) ++
            (needleDangleRepl ++ ts)) from by
        simp [siteOf, List.append_assoc]]
      exact noExpect_pre hpre _ k hk
    rw [insF_append_of_none pre.length pre _ le_rfl hpreNone]
    have hm := insMatch_at_site (needleDangleRepl ++ ts) hmem hww hwne
    have hne : siteOf name w ++ (needleDangleRepl ++ ts) ≠ [] := by
      intro hcontra
      have hlen := congrArg List.length hcontra
      simp only [siteOf, List.length_append, List.length_cons,
        List.length_nil] at hlen
      omega
    rw [insT_match_any hm hne]
    have hdNone : ∀ k, k < needleDangleRepl.length →
        insMatch (needleDangleRepl.drop k ++ ts) = none := by
      intro k hk
      by_cases h0 : k = 0
      · subst h0
        rw [List.drop_zero]
        rw [show needleDangleRepl ++ ts =
            insHeadE ++ ('.' :: ("any(String))".data ++ ts)) from by
          rw [show needleDangleRepl =
            insHeadE ++ ('.' :: "any(String))".data) from by decide]
          simp [List.append_assoc]]
        exact insMatch_dot_after _
      · exact insMatch_none_of_not_expect
          (noExpect_DReplInner _ k hk (by omega))
    rw [insF_append_of_none needleDangleRepl.length needleDangleRepl _
      le_rfl hdNone]
    have htsNone : ∀ k, k < ts.length → insMatch (ts.drop k) = none :=
      fun k hk => insMatch_none_of_not_expect (noExpect_tail hts k hk)
    rw [insF_id_of_none ts.length ts le_rfl htsNone]
  have hr1 : replaceAll needleDup anyStringArg
      (pre ++ (siteOf name w ++ (insertedArg ++ (needleDangleRepl ++ ts)))) =
      pre ++ (siteOf name w ++ (needleDangleRepl ++ ts)) := by
    have hshape : pre ++ (siteOf name w ++
        (insertedArg ++ (needleDangleRepl ++ ts))) =
        (pre ++ siteOf name w) ++ (needleDup ++ (')' :: ts)) := by
      rw [show insertedArg = anyStringArg ++ [',', ' '] from by decide,
        show needleDangleRepl = anyStringArg ++ [')'] from by decide,
        show needleDup = anyStringArg ++ ([',', ' '] ++ anyStringArg) from
          by decide]
      simp [List.append_assoc]
    rw [hshape]
    have hyA : pfx anyStringArg (needleDup ++ (')' :: ts)) = true :=
      pfx_append_weaken _ (by decide)
    rw [repl_append_of_none (pre ++ siteOf name w).length _ _ le_rfl
      (noNeedle_preSite (by decide) (by decide) hpre hmem hww hw2 hyA)]
    rw [replaceAll_append_self (by decide)]
    have hnone : occurs needleDup (')' :: ts) = false := by
      simp only [occurs, Bool.or_eq_false_iff]
      constructor
      · exact pfx_needle_head (by decide) (by decide)
      · exact occurs_false_needle (by decide) (by decide) hts
    rw [replaceAll_not_occurs hnone]
    rw [show needleDangleRepl = anyStringArg ++ [')'] from by decide]
    simp [List.append_assoc]
  have hr2 : replaceAll needleDangle needleDangleRepl
      (pre ++ (siteOf name w ++ (needleDangleRepl ++ ts))) =
      pre ++ (siteOf name w ++ (needleDangleRepl ++ ts)) := by
    rw [show pre ++ (siteOf name w ++ (needleDangleRepl ++ ts)) =
        (pre ++ siteOf name w) ++ (needleDangleRepl ++ ts) from by
      simp [List.append_assoc]]
    have hyA : pfx anyStringArg (needleDangleRepl ++ ts) = true :=
      pfx_append_weaken _ (by decide)
    rw [repl_append_of_none (pre ++ siteOf name w).length _ _ le_rfl
      (noNeedle_preSite (by decide) (by decide) hpre hmem hww hw2 hyA)]
    rw [replaceAll_not_occurs
      (noNeedle_dreplRegion [' ', ')'] (by decide) (by decide) hts)]
  unfold inserterTransform
  rw [hscan, hr1, hr2]

set_option maxRecDepth 4096 in
/-- C3 counterexample: the universally quantified idempotence claim fails.
The input holds exactly one inserted placeholder in the claim's sense —
`expect.any(String), ` directly after the open paren of the matched call
`expect(policyRepositoryMock.save).toHaveBeenCalledWith(` — preceded by a
free-standing run of three placeholder texts.  Because the collapse
normalization is a global leftmost `str.replace`, running the Inserter on
this text yields an output that still contains two consecutive
placeholders, and a further run changes the text again, so neither the
no-doubled-placeholder conclusion nor repeated-application stability
holds. -/
theorem c3_counterexample :
    occurs needleDup (inserterTransform
      ("expect.any(String), expect.any(String), expect.any(String) ".data ++
        (occOf "policyRepositoryMock".data "save".data ++ "x);".data))) =
      true ∧
    inserterTransform (inserterTransform
      ("expect.any(String), expect.any(String), expect.any(String) ".data ++
        (occOf "policyRepositoryMock".data "save".data ++ "x);".data))) ≠
      inserterTransform
        ("expect.any(String), expect.any(String), expect.any(String) ".data ++
          (occOf "policyRepositoryMock".data "save".data ++ "x);".data)) :=
  ⟨by decide, by decide⟩

/-- C3 (corrected): Inserter idempotence with normalization holds on a
site whose surrounding text carries no other occurrence of the letters
`expect`.  For a text `pre ++ expect(NAME.MEMBER).toHaveBeenCalledWith(
expect.any(String), ++ tail` holding one already-inserted placeholder at
a matched call, where `pre`, `MEMBER` and `tail` contain no occurrence of
"expect", running the Inserter again yields an output with no doubled
placeholder and no placeholder followed by a dangling separator before a
closing parenthesis, and a further application leaves that output
unchanged.  (The tail may begin with a closing parenthesis: the run then
rewrites the site to the collapsed `expect.any(String))` form, which the
conclusions cover.)  The unqualified universal claim is refuted by
`c3_counterexample`: the global normalization replace can misalign on
free-standing placeholder runs elsewhere in the text. -/
theorem c3_inserter_idempotent (pre tail name w : List Char)
    (hmem : name ∈ mocksL) (hww : w.all isWordChar = true) (hwne : w ≠ [])
    (hw2 : occurs "expect".data w = false)
    (hpre : occurs "expect".data pre = false)
    (htail : occurs "expect".data tail = false) :
    occurs needleDup
        (inserterTransform (pre ++ (occOf name w ++ tail))) = false ∧
      occurs needleDangle
        (inserterTransform (pre ++ (occOf name w ++ tail))) = false ∧
      inserterTransform (inserterTransform (pre ++ (occOf name w ++ tail))) =
        inserterTransform (pre ++ (occOf name w ++ tail)) := by
  by_cases h2 : tail.head? = some ')'
  · cases tail with
    | nil => simp at h2
    | cons t0 ts =>
      have ht0 : t0 = ')' := by simpa using h2
      subst ht0
      have hts : occurs "expect".data ts = false := by
        have h3 := htail
        simp only [occurs, Bool.or_eq_false_iff] at h3
        exact h3.2
      have hT : inserterTransform (pre ++ (occOf name w ++ (')' :: ts))) =
          pre ++ (siteOf name w ++ (needleDangleRepl ++ ts)) := by
        unfold inserterTransform
        rw [insertScan_c3 hpre hmem hww hwne htail,
          normalize1_c3 hpre hmem hww hw2 htail,
          normalize2_paren hpre hmem hww hw2 hts]
      rw [hT]
      exact ⟨occursDup_paren hpre hmem hww hw2 hts,
        occursDangle_paren hpre hmem hww hw2 hts,
        parenFix hpre hmem hww hwne hw2 hts⟩
  · have hT : inserterTransform (pre ++ (occOf name w ++ tail)) =
        pre ++ (occOf name w ++ tail) := by
      unfold inserterTransform
      rw [insertScan_c3 hpre hmem hww hwne htail,
        normalize1_c3 hpre hmem hww hw2 htail,
        normalize2_c3 hpre hmem hww hw2 htail h2]
    rw [hT]
    exact ⟨occursDup_c3 hpre hmem hww hw2 htail,
      occursDangle_c3 hpre hmem hww hw2 htail h2, hT⟩

/-- C3 witness: the amended theorem applied at a concrete already-patched
assertion line. -/
theorem c3_witness :
    occurs needleDup (inserterTransform ("await check(); ".data ++
        (occOf "policyRepositoryMock".data "save".data ++
          "policy);".data))) = false ∧
      occurs needleDangle (inserterTransform ("await check(); ".data ++
        (occOf "policyRepositoryMock".data "save".data ++
          "policy);".data))) = false ∧
      inserterTransform (inserterTransform ("await check(); ".data ++
        (occOf "policyRepositoryMock".data "save".data ++
          "policy);".data))) =
        inserterTransform ("await check(); ".data ++
          (occOf "policyRepositoryMock".data "save".data ++
            "policy);".data)) :=
  c3_inserter_idempotent "await check(); ".data "policy);".data
    "policyRepositoryMock".data "save".data (by decide) (by decide)
    (by decide) (by decide) (by decide) (by decide)

end UMS
